import Mathlib

/-!
Verification development for the rs-tml parsing engine.

The Rust sources are shallowly embedded over `List Char`: a Rust `&str`
becomes a `List Char`, byte offsets become list indices.  All delimiters
actually used by the parser (`"`, `{`, `}`, `/*`, `*/`, `//`) are ASCII,
for which byte positions found by `str::find` are character boundaries and
the byte `b'\\'` occurs exactly where the previous character is `'\\'`, so
the character-level embedding agrees with the byte-level code on them.
Rust's `char::is_whitespace` / `char::is_alphanumeric` are Unicode-aware;
the embedding uses Lean's ASCII `Char.isWhitespace` / `Char.isAlphanum`,
i.e. it is faithful on the ASCII fragment exercised by every concrete
statement below.

Loops whose termination depends on data (the delimiter-search loop, the
comment skipper, the repetition combinators and the mutual
element/node recursion) are embedded with an explicit fuel parameter so
that every definition is structurally recursive and kernel-reducible;
each top-level wrapper supplies fuel strictly larger than the input
length, which is shown (or argued locally) to be sufficient, so the fuel
is an artifact of totality and not of behaviour.
-/

namespace RsTml

/-- A Rust `&str`, embedded character-wise. -/
abbrev Str := List Char

/-- Characters accepted by the tag lexer: `c.is_alphanumeric() || c == '-'`
(`src/tag.rs`, `split_exclusive_once` predicate, negated). -/
def isTagChar (c : Char) : Bool := c.isAlphanum || c == '-'

/-- `str::trim_start`. -/
def trimStart (l : Str) : Str := l.dropWhile Char.isWhitespace

/-- `str::trim_end`. -/
def trimEnd (l : Str) : Str := (l.reverse.dropWhile Char.isWhitespace).reverse

/-- The error taxonomy of `src/error.rs`.  `Cow<str>` payloads become `Str`. -/
inductive ParseError where
  | unexpectedEndOfInput : ParseError
  | emptyInput : ParseError
  | missingEndDelimiter (expected found : Str) : ParseError
  | invalidInput (found : Str) (context : Option Str) : ParseError
  | missingToken (expected found : Str) (context : Option Str) : ParseError
  deriving DecidableEq, Repr

/-- `ParseResult<'a, T> = Result<(&'a str, T), ParseError<'a>>`. -/
abbrev ParseResult (α : Type) := Except ParseError (Str × α)

/-- `str::find(pat)`: index of the first occurrence of `pat` as a substring
(`some 0` on the empty pattern, as in Rust). -/
def findPat (pat : Str) : Str → Option Nat
  | [] => if pat.isEmpty then some 0 else none
  | c :: cs =>
    if pat.isPrefixOf (c :: cs) then some 0
    else (findPat pat cs).map (· + 1)

/-- The `find(start) … chain(find(end)) … min_by_key` step of `nested`
(`src/util.rs`): position of the nearer occurrence, the Boolean telling
whether it is a start occurrence; on a tie the start delimiter wins,
because `min_by_key` keeps the first of equally-keyed elements and the
start position is chained first. -/
def nextDelim (s e w : Str) : Option (Nat × Bool) :=
  match findPat s w, findPat e w with
  | some ps, some pe => if ps ≤ pe then some (ps, true) else some (pe, false)
  | some ps, none => some (ps, true)
  | none, some pe => some (pe, false)
  | none, none => none

/-- The `while let Some(next_delim_pos) = …` search loop of `nested`
(`src/util.rs` lines 29-58), over the input `A` that follows the opening
delimiter.  `offset` is `search_offset`, `depth` the nesting depth.  The
fuel only bounds the number of iterations; each iteration strictly
increases `offset` (for nonempty delimiters), so the wrapper's fuel of
`A.length + 2` is never exhausted there. -/
def nestedAux (s e A : Str) : Nat → Nat → Nat → ParseResult Str
  | 0, _, _ => .error (.missingEndDelimiter e A)
  | fuel + 1, offset, depth =>
    match nextDelim s e (A.drop offset) with
    | none => .error (.missingEndDelimiter e A)
    | some (rel, isStart) =>
      if 0 < offset + rel && A[offset + rel - 1]? == some '\\' then
        nestedAux s e A fuel (offset + rel + 1) depth
      else if isStart then
        nestedAux s e A fuel (offset + rel + s.length) (depth + 1)
      else if depth = 1 then
        .ok (A.drop (offset + rel + e.length), A.take (offset + rel))
      else
        nestedAux s e A fuel (offset + rel + e.length) (depth - 1)

/-- The closing-occurrence search of `delimited` (`src/util.rs` lines
63-85): `match_indices(delim)` enumerates successive non-overlapping
occurrences, an occurrence immediately preceded by `\\` is skipped (the
iterator resumes after the whole occurrence), the first surviving
occurrence index is returned.  `prev` is the character before the current
position (`none` at position 0, where the occurrence always survives). -/
def delimitedAux (delim : Str) : Nat → Option Char → Str → Option Nat
  | 0, _, _ => none
  | fuel + 1, prev, w =>
    match w with
    | [] => if delim.isEmpty then some 0 else none
    | c :: cs =>
      if delim.isPrefixOf (c :: cs) then
        if prev == some '\\' then
          (delimitedAux delim fuel delim.getLast? ((c :: cs).drop delim.length)).map
            (· + delim.length)
        else some 0
      else (delimitedAux delim fuel (some c) cs).map (· + 1)

/-- `delimited` (`src/util.rs`): the `start == end` special case of the
scanner. -/
def delimited (input delim : Str) : ParseResult Str :=
  if ¬ delim.isPrefixOf (trimStart input) then
    .error (.invalidInput ((trimStart input).take delim.length)
      (some "expected start delimiter".data))
  else
    match delimitedAux delim (((trimStart input).drop delim.length).length + 1) none
        ((trimStart input).drop delim.length) with
    | some i =>
      .ok (((trimStart input).drop delim.length).drop (i + delim.length),
        ((trimStart input).drop delim.length).take i)
    | none => .error (.missingEndDelimiter delim "end of input".data)

/-- `nested` (`src/util.rs`): balanced-delimiter scanner. -/
def nested (input s e : Str) : ParseResult Str :=
  if ¬ s.isPrefixOf (trimStart input) then
    .error (.invalidInput ((trimStart input).take s.length)
      (some ("Expected start delimiter: ".data ++ s)))
  else if s = e then
    delimited (trimStart input) s
  else
    nestedAux s e ((trimStart input).drop s.length)
      (((trimStart input).drop s.length).length + 2) 0 1

/-- `quote_nested` (`src/util.rs`). -/
def quote_nested (input : Str) : ParseResult Str := delimited input ['"']

/-- `split_exclusive_once` (`src/tag.rs`): split at the first character
satisfying the predicate, keeping that character on the right; `none` when
no character satisfies it. -/
def split_exclusive_once (input : Str) (p : Char → Bool) : Option (Str × Str) :=
  match input with
  | [] => none
  | c :: cs =>
    if p c then some ([], c :: cs)
    else (split_exclusive_once cs p).map (fun q => (c :: q.1, q.2))

/-- `Tag::parse_no_whitespace` (`src/tag.rs`): longest leading run of
alphanumerics and hyphens; `EmptyInput` when the run is empty.  A tag is
just its name, so the parsed value is the name string. -/
def tag_parse_no_whitespace (input : Str) : ParseResult Str :=
  match split_exclusive_once input (fun c => ¬ isTagChar c) with
  | some (name, rest) =>
    if name.isEmpty then .error .emptyInput else .ok (rest, name)
  | none =>
    if input.isEmpty then .error .emptyInput else .ok ([], input)

/-- `Attribute` (`src/attribute.rs`): a key/value pair of strings. -/
structure Attribute where
  key : Str
  value : Str
  deriving DecidableEq, Repr

/-- `str::split_once(sep)`: parts strictly before and after the first
occurrence of the separator character. -/
def splitOnce (sep : Char) : Str → Option (Str × Str)
  | [] => none
  | c :: cs =>
    if c = sep then some ([], cs)
    else (splitOnce sep cs).map (fun q => (c :: q.1, q.2))

/-- `get_attribute_key` (`src/attribute.rs` lines 60-82). -/
def get_attribute_key (key : Str) : ParseResult Str :=
  match key with
  | [] => .error (.missingToken ".[name]".data [] (some "Attribute key cannot be empty".data))
  | c :: k =>
    if c ≠ '.' then
      .error (.invalidInput (c :: k) (some "Attribute key must start with a period".data))
    else
      match tag_parse_no_whitespace k with
      | .ok (rest, name) => .ok (rest, name)
      | .error _ => .error (.invalidInput k (some "Invalid attribute key format".data))

/-- `Attribute::parse_no_whitespace` (`src/attribute.rs` lines 84-121).
Note that the `=` split is `split_once` over the whole remaining input and
that the remainder returned by `get_attribute_key` is discarded (`let (_, key)`). -/
def attribute_parse_no_whitespace (input : Str) : ParseResult Attribute :=
  match input with
  | '#' :: idValue =>
    match tag_parse_no_whitespace idValue with
    | .ok (rest, id) => .ok (rest, ⟨"id".data, id⟩)
    | .error _ => .error (.invalidInput input (some "Invalid id format".data))
  | _ =>
    match splitOnce '=' input with
    | none =>
      match get_attribute_key input with
      | .ok (rest, key) => .ok (rest, ⟨"class".data, key⟩)
      | .error e => .error e
    | some (key, rest) =>
      match quote_nested (trimStart rest) with
      | .error e => .error e
      | .ok (rest', value) =>
        match get_attribute_key (trimEnd key) with
        | .error e => .error e
        | .ok (_, k) => .ok (rest', ⟨k, value⟩)

/-- `Text::parse_no_whitespace` (`src/models/text.rs`): exactly one
quote-delimited span; the value is the raw content. -/
def text_parse_no_whitespace (input : Str) : ParseResult Str :=
  quote_nested input

/-- `Comment` (`src/parse.rs`). -/
inductive Comment where
  | line (content : Str)
  | block (content : Str)
  deriving DecidableEq, Repr

/-- `Comment::parse_no_whitespace` (`src/parse.rs` lines 18-35).  (The
Rust `MissingToken` context quotes the two tokens with apostrophes; the
embedded message drops the apostrophes only.) -/
def comment_parse_no_whitespace (input : Str) : ParseResult Comment :=
  match trimStart input with
  | '/' :: '/' :: rest =>
    (match splitOnce '\n' rest with
     | some (line, rest') => .ok (rest', .line line)
     | none => .ok ([], .line rest))
  | other =>
    match nested other "/*".data "*/".data with
    | .ok (rest, content) => .ok (rest, .block content)
    | .error _ =>
      .error (.missingToken "// or /*".data other
        (some "Expected // for line comment or /* for block comment".data))

/-- The loop of `consume_comments` (`src/parse.rs` lines 76-87).  Each
successful iteration consumes at least the two comment-introducer
characters from the trimmed input, so the wrapper's fuel of
`input.length + 1` is never exhausted. -/
def consumeCommentsAux : Nat → Str → Str
  | 0, input => trimStart input
  | fuel + 1, input =>
    match comment_parse_no_whitespace (trimStart input) with
    | .ok (rest, _) => consumeCommentsAux fuel rest
    | .error _ => trimStart input

/-- `consume_comments` (`src/parse.rs`). -/
def consume_comments (input : Str) : Str := consumeCommentsAux (input.length + 1) input

section Combinators

variable {α : Type}

/-- `RSTMLParseExt::parse`: trim leading whitespace, then the entity's
exact-position parser `p`. -/
def parseTrimmed (p : Str → ParseResult α) (input : Str) : ParseResult α :=
  p (trimStart input)

/-- `RSTMLParseExt::parse_ignoring_comments`. -/
def parse_ignoring_comments (p : Str → ParseResult α) (input : Str) : ParseResult α :=
  p (consume_comments input)

/-- The loop of `RSTMLParseExt::parse_many` (`src/parse.rs` lines 119-137):
stop on empty trimmed input or on the first failure, returning the current
(untrimmed) input as remainder.  Fuel as for `consume_comments`: each
iteration consumes at least one character whenever `p` does. -/
def parseManyAux (p : Str → ParseResult α) : Nat → Str → List α → ParseResult (List α)
  | 0, input, acc => .ok (input, acc)
  | fuel + 1, input, acc =>
    if (trimStart input).isEmpty then .ok (input, acc)
    else
      match p (trimStart input) with
      | .ok (rest, item) => parseManyAux p fuel rest (acc ++ [item])
      | .error _ => .ok (input, acc)

/-- `RSTMLParseExt::parse_many`. -/
def parse_many (p : Str → ParseResult α) (input : Str) : ParseResult (List α) :=
  parseManyAux p (input.length + 1) input []

/-- The loop of `RSTMLParseExt::parse_many_ignoring_comments`
(`src/parse.rs` lines 140-152); note its Rust return type is a plain pair,
not a `Result`. -/
def parseManyICAux (p : Str → ParseResult α) : Nat → Str → List α → (Str × List α)
  | 0, input, acc => (input, acc)
  | fuel + 1, input, acc =>
    match p (consume_comments input) with
    | .ok (rest, item) => parseManyICAux p fuel rest (acc ++ [item])
    | .error _ => (input, acc)

/-- `RSTMLParseExt::parse_many_ignoring_comments`. -/
def parse_many_ignoring_comments (p : Str → ParseResult α) (input : Str) : Str × List α :=
  parseManyICAux p (input.length + 1) input []

/-- `RSTMLParseExt::parse_n` (`src/parse.rs` lines 155-176): exactly `n`
repetitions; `UnexpectedEndOfInput` on early exhaustion, otherwise the
underlying error propagates. -/
def parse_n (p : Str → ParseResult α) : Nat → Str → ParseResult (List α)
  | 0, input => .ok (input, [])
  | n + 1, input =>
    if (trimStart input).isEmpty then .error .unexpectedEndOfInput
    else
      match p (trimStart input) with
      | .ok (rest, item) => (parse_n p n rest).map (fun q => (q.1, item :: q.2))
      | .error e => .error e

end Combinators

mutual

/-- `Node` (`src/node.rs`): text literal or element. -/
inductive Node where
  | text (content : Str) : Node
  | element (el : Element) : Node

/-- `Element` (`src/models/element.rs`): tag name, ordered attributes,
ordered children. -/
inductive Element where
  | mk (name : Str) (attributes : List Attribute) (children : List Node) : Element

end

def Element.name : Element → Str
  | .mk n _ _ => n

def Element.attributes : Element → List Attribute
  | .mk _ a _ => a

def Element.children : Element → List Node
  | .mk _ _ c => c

mutual

/-- `Element::parse_no_whitespace` (`src/models/element.rs` lines 133-180):
tag, comments, the balanced `{}` body, then the interleaved
attribute/child loop over the body. -/
def elementAux : Nat → Str → ParseResult Element
  | 0, _ => .error .unexpectedEndOfInput
  | fuel + 1, input =>
    match tag_parse_no_whitespace input with
    | .error e => .error e
    | .ok (rest, name) =>
      match nested (consume_comments rest) ['{'] ['}'] with
      | .error e => .error e
      | .ok (restOut, content) =>
        match itemsAux fuel content [] [] with
        | .error e => .error e
        | .ok (attrs, children) => .ok (restOut, .mk name attrs children)

/-- The `while !rest.is_empty()` body loop of `Element::parse_no_whitespace`:
skip comments, try `Attribute::parse_ignoring_comments`, else
`Node::parse_ignoring_comments`, else fail. -/
def itemsAux : Nat → Str → List Attribute → List Node →
    Except ParseError (List Attribute × List Node)
  | 0, _, _, _ => .error .unexpectedEndOfInput
  | fuel + 1, rest, attrs, children =>
    if (consume_comments rest).isEmpty then .ok (attrs, children)
    else
      match attribute_parse_no_whitespace (consume_comments (consume_comments rest)) with
      | .ok (r, a) => itemsAux fuel r (attrs ++ [a]) children
      | .error _ =>
        match nodeAux fuel (consume_comments (consume_comments rest)) with
        | .ok (r, n) => itemsAux fuel r attrs (children ++ [n])
        | .error _ =>
          .error (.invalidInput (consume_comments rest)
            (some "Unexpected content in element".data))

/-- `Node::parse_no_whitespace` (`src/node.rs` lines 91-104): the live
parser, trying `Text::parse_ignoring_comments` first, then
`Element::parse_ignoring_comments`. -/
def nodeAux : Nat → Str → ParseResult Node
  | 0, _ => .error .unexpectedEndOfInput
  | fuel + 1, input =>
    match text_parse_no_whitespace (consume_comments input) with
    | .ok (rest, t) => .ok (rest, .text t)
    | .error _ =>
      match elementAux fuel (consume_comments input) with
      | .ok (rest, el) => .ok (rest, .element el)
      | .error _ => .error (.invalidInput input (some "Expected a Text or Element node".data))

end

/-- `Element::parse_no_whitespace` at the top level (fuel instantiated). -/
def element_parse_no_whitespace (input : Str) : ParseResult Element :=
  elementAux (input.length + 1) input

/-- `Node::parse_no_whitespace` (`src/node.rs`) at the top level. -/
def node_parse_no_whitespace (input : Str) : ParseResult Node :=
  nodeAux (input.length + 1) input

/-- `Block` (`src/block.rs`). -/
structure Block where
  children : List Node

/-- The loop of `Block::parse_no_whitespace` (`src/block.rs` lines 63-80):
parse `Node`s until the input is empty or a node fails, never failing
itself. -/
def blockAux : Nat → Str → List Node → Str × List Node
  | 0, input, acc => (input, acc)
  | fuel + 1, input, acc =>
    if input.isEmpty then (input, acc)
    else
      match nodeAux fuel input with
      | .ok (rest, n) => blockAux fuel rest (acc ++ [n])
      | .error _ => (input, acc)

/-- `Block::parse_no_whitespace`. -/
def block_parse_no_whitespace (input : Str) : ParseResult Block :=
  let q := blockAux (input.length + 1) input []
  .ok (q.1, ⟨q.2⟩)

mutual

/-- The superseded `Element::parse_no_whitespace` of the top-level
`src/element.rs` (lines 92-120): attributes first via
`parse_many_ignoring_comments`, then children, no interleaving. -/
def oldElementAux : Nat → Str → ParseResult Element
  | 0, _ => .error .unexpectedEndOfInput
  | fuel + 1, input =>
    match tag_parse_no_whitespace input with
    | .error e => .error e
    | .ok (rest, name) =>
      match nested (consume_comments rest) ['{'] ['}'] with
      | .error e => .error e
      | .ok (restOut, content) =>
        match parseManyICAux attribute_parse_no_whitespace
            ((consume_comments content).length + 1) (consume_comments content) [] with
        | (ra, attrs) =>
          match oldNodesMany fuel (consume_comments ra) [] with
          | (rc, children) =>
            if ¬ (consume_comments rc).isEmpty then
              .error (.invalidInput rc
                (some "Unexpected content after element children".data))
            else .ok (restOut, .mk name attrs children)

/-- `Node::parse_many_ignoring_comments` instantiated at the superseded
`Node` parser (fuel-threaded because the node parser is mutual here). -/
def oldNodesMany : Nat → Str → List Node → Str × List Node
  | 0, input, acc => (input, acc)
  | fuel + 1, input, acc =>
    match oldNodeAux fuel (consume_comments input) with
    | .ok (rest, n) => oldNodesMany fuel rest (acc ++ [n])
    | .error _ => (input, acc)

/-- `Node::parse_no_whitespace` of the superseded top-level
`src/element.rs` (lines 77-90): Element alternative first, then Text,
no comment skipping. -/
def oldNodeAux : Nat → Str → ParseResult Node
  | 0, _ => .error .unexpectedEndOfInput
  | fuel + 1, input =>
    match oldElementAux fuel input with
    | .ok (rest, el) => .ok (rest, .element el)
    | .error _ =>
      match text_parse_no_whitespace input with
      | .ok (rest, t) => .ok (rest, .text t)
      | .error _ => .error (.invalidInput input (some "Cannot find Node type".data))

end

/-- The superseded Node parser (`src/element.rs`) at the top level. -/
def old_node_parse_no_whitespace (input : Str) : ParseResult Node :=
  oldNodeAux (input.length + 1) input

/-- Spec-side variant for the try-order claim: the live `Node` parser of
`src/node.rs` with its two alternatives swapped (Element tried first),
everything else unchanged. -/
def nodeAuxElementFirst : Nat → Str → ParseResult Node
  | 0, _ => .error .unexpectedEndOfInput
  | fuel + 1, input =>
    match elementAux fuel (consume_comments input) with
    | .ok (rest, el) => .ok (rest, .element el)
    | .error _ =>
      match text_parse_no_whitespace (consume_comments input) with
      | .ok (rest, t) => .ok (rest, .text t)
      | .error _ => .error (.invalidInput input (some "Expected a Text or Element node".data))

/-- Builder API: `Element::new` (`src/models/element.rs`). -/
def Element.new (name : Str) : Element := .mk name [] []

/-- Builder API: `Element::with_attribute`. -/
def Element.with_attribute : Element → Attribute → Element
  | .mk n a c, attr => .mk n (a ++ [attr]) c

/-- Builder API: `Element::with_key_value`. -/
def Element.with_key_value (el : Element) (k v : Str) : Element :=
  el.with_attribute ⟨k, v⟩

/-- Builder API: `Element::with_child`. -/
def Element.with_child : Element → Node → Element
  | .mk n a c, child => .mk n a (c ++ [child])

/-- Spec-side balanced scan, written from the spec's words (§4.1 of the
spec, quoted by the claim): after the opening token, track depth from 1,
scan left to right for the nearer occurrence of the start or end token
(start preferred when both match at a position), skip occurrences
immediately preceded by a backslash, increment depth on a start
occurrence, decrement on an end occurrence; the result is the index of
the end occurrence that brings the depth to 0.  One unit of fuel is spent
per character, so `w.length + 1` always suffices. -/
def scanIdx (s e : Str) : Nat → Nat → Option Char → Str → Option Nat
  | 0, _, _, _ => none
  | fuel + 1, depth, prev, w =>
    match w with
    | [] => none
    | c :: cs =>
      if s.isPrefixOf (c :: cs) || e.isPrefixOf (c :: cs) then
        if prev == some '\\' then (scanIdx s e fuel depth (some c) cs).map (· + 1)
        else if s.isPrefixOf (c :: cs) then
          (scanIdx s e fuel (depth + 1) s.getLast? (cs.drop (s.length - 1))).map (· + s.length)
        else if depth = 1 then some 0
        else (scanIdx s e fuel (depth - 1) e.getLast? (cs.drop (e.length - 1))).map (· + e.length)
      else (scanIdx s e fuel depth (some c) cs).map (· + 1)

/-- The spec-side scanner packaged as span and remainder over the text
that follows the opening delimiter. -/
def specSpan (s e w : Str) : Option (Str × Str) :=
  (scanIdx s e (w.length + 1) 1 none w).map (fun i => (w.take i, w.drop (i + e.length)))

/-- The character before position `offset` of `A` (`none` at position 0):
the escape-test context of the search loop. -/
def prevAt (A : Str) (offset : Nat) : Option Char :=
  if offset = 0 then none else A[offset - 1]?

/-- Condition under which the quote scan of `delimited` returns a span
verbatim: every `"` inside it is immediately preceded by a `\\` (so it is
skipped as escaped) and the character after the span — the intended
closing quote — is not preceded by a `\\` (`prev` carries the character
before the current position, `none` at the opening quote). -/
def quoteOk : Option Char → Str → Bool
  | prev, [] => ¬ (prev == some '\\')
  | prev, c :: cs => (¬ (c = '"') || prev == some '\\') && quoteOk (some c) cs

/-- `impl Display for Attribute` (`src/attribute.rs` lines 42-46): the
attribute serializer that IS in the repository renders `key="value"` with
no shorthand prefix. -/
def display_attribute (a : Attribute) : Str :=
  a.key ++ '=' :: '"' :: a.value ++ ['"']

/-- Modelled from the spec: the repository has no `Display` impl for
`Element`/`Node` under `src/` (the rendering layer of §6(b), exercised by
`test_large_document`'s `println!` and required by the §8 round-trip
property, is an external file).  The renderer below follows the surface
grammar of §6: `tagname { body }`, attributes in their key/value source
form `.name="value"`, text nodes as `"literal"`, children in order. -/
def renderAttribute (a : Attribute) : Str :=
  '.' :: a.key ++ '=' :: '"' :: a.value ++ ['"']

/-- Modelled from the spec: the attribute list of an element body, each
attribute preceded by a single separating space. -/
def renderAttrs : List Attribute → Str
  | [] => []
  | a :: as => ' ' :: renderAttribute a ++ renderAttrs as

mutual

/-- Modelled from the spec: a node in source form (§6 surface grammar). -/
def renderNode : Node → Str
  | .text c => '"' :: c ++ ['"']
  | .element el => renderElement el

/-- Modelled from the spec: an element in source form, attributes first,
then children, each preceded by a single space. -/
def renderElement : Element → Str
  | .mk name attrs children =>
    name ++ '{' :: (renderAttrs attrs ++ renderNodes children) ++ [' ', '}']

/-- Modelled from the spec: the child list of an element body. -/
def renderNodes : List Node → Str
  | [] => []
  | n :: ns => ' ' :: renderNode n ++ renderNodes ns

end

/-- A string usable verbatim as an attribute value or text content in
re-parseable rendered form: no quote (would close the literal early), no
backslash (would escape the closing quote), no brace (would confuse the
balanced body scan). -/
def goodText (l : Str) : Bool :=
  l.all fun c => ¬ (c = '"' ∨ c = '\\' ∨ c = '{' ∨ c = '}')

/-- A string usable as a tag or attribute name: nonempty and consisting of
tag-lexer characters. -/
def goodName (l : Str) : Bool := ¬ l.isEmpty && l.all isTagChar

mutual

/-- Validity of a builder-constructed node for the round-trip property. -/
def validNode : Node → Bool
  | .text c => goodText c
  | .element el => validElement el

/-- Validity of a builder-constructed element for the round-trip
property: well-formed names and clean values throughout. -/
def validElement : Element → Bool
  | .mk name attrs children =>
    goodName name && attrs.all (fun a => goodName a.key && goodText a.value) &&
      validNodes children

/-- Validity of a child list. -/
def validNodes : List Node → Bool
  | [] => true
  | n :: ns => validNode n && validNodes ns

end

/-! ### Basic lemmas about trimming and suffixes -/

theorem trimStart_suffix (l : Str) : trimStart l <:+ l := List.dropWhile_suffix _

theorem trimStart_length_le (l : Str) : (trimStart l).length ≤ l.length :=
  (trimStart_suffix l).length_le

theorem trimStart_eq_self (l : Str) (h : ∀ c, l.head? = some c → ¬ c.isWhitespace) :
    trimStart l = l := by
  cases l with
  | nil => rfl
  | cons c cs =>
    have := h c rfl
    simp [trimStart, List.dropWhile, this]

theorem trimStart_head_not_ws (l : Str) (c : Char) (h : (trimStart l).head? = some c) :
    ¬ c.isWhitespace := by
  induction l with
  | nil => simp [trimStart] at h
  | cons a as ih =>
    by_cases ha : a.isWhitespace
    · exact ih (by simpa [trimStart, List.dropWhile, ha] using h)
    · simp [trimStart, List.dropWhile, ha] at h
      subst h; exact ha

theorem trimStart_idem (l : Str) : trimStart (trimStart l) = trimStart l := by
  apply trimStart_eq_self
  intro c hc
  exact trimStart_head_not_ws l c hc

/-! ### Remainders are suffixes: the delimiter scanner -/

theorem delimited_ok_suffix (input d r c : Str) (h : delimited input d = .ok (r, c)) :
    r <:+ input := by
  unfold delimited at h
  split at h
  · exact absurd h (by simp)
  · split at h
    · simp only [Except.ok.injEq, Prod.mk.injEq] at h
      obtain ⟨h1, -⟩ := h
      subst h1
      exact ((List.drop_suffix _ _).trans (List.drop_suffix _ _)).trans (trimStart_suffix input)
    · exact absurd h (by simp)

theorem nestedAux_ok_shape (s e A : Str) (fuel offset depth : Nat) (r c : Str)
    (h : nestedAux s e A fuel offset depth = .ok (r, c)) :
    ∃ q, r = A.drop (q + e.length) ∧ c = A.take q := by
  induction fuel generalizing offset depth with
  | zero => exact absurd h (by simp [nestedAux])
  | succ fuel ih =>
    unfold nestedAux at h
    split at h
    · exact absurd h (by simp)
    · split at h
      · exact ih _ _ h
      · split at h
        · exact ih _ _ h
        · split at h
          · simp only [Except.ok.injEq, Prod.mk.injEq] at h
            exact ⟨_, h.1.symm, h.2.symm⟩
          · exact ih _ _ h

theorem nested_ok_suffix (input s e r c : Str) (h : nested input s e = .ok (r, c)) :
    r <:+ input := by
  unfold nested at h
  split at h
  · exact absurd h (by simp)
  · split at h
    · exact (delimited_ok_suffix _ _ _ _ h).trans (trimStart_suffix input)
    · obtain ⟨q, hr, -⟩ := nestedAux_ok_shape _ _ _ _ _ _ _ _ h
      rw [hr]
      exact ((List.drop_suffix _ _).trans (List.drop_suffix _ _)).trans (trimStart_suffix input)

/-! ### Remainders are suffixes: the lexers -/

theorem split_exclusive_once_eq (input : Str) (p : Char → Bool) (a b : Str)
    (h : split_exclusive_once input p = some (a, b)) : input = a ++ b := by
  induction input generalizing a b with
  | nil => simp [split_exclusive_once] at h
  | cons c cs ih =>
    unfold split_exclusive_once at h
    split at h
    · simp only [Option.some.injEq, Prod.mk.injEq] at h
      obtain ⟨h1, h2⟩ := h
      rw [← h1, ← h2]
      rfl
    · cases hs : split_exclusive_once cs p with
      | none => simp [hs] at h
      | some q =>
        obtain ⟨qa, qb⟩ := q
        simp only [hs, Option.map_some', Option.some.injEq, Prod.mk.injEq] at h
        obtain ⟨h1, h2⟩ := h
        rw [← h1, ← h2]
        simpa using ih qa qb hs

theorem tag_ok_split (input r n : Str) (h : tag_parse_no_whitespace input = .ok (r, n)) :
    input = n ++ r ∧ ¬ n.isEmpty := by
  unfold tag_parse_no_whitespace at h
  split at h
  next a b hs =>
    split at h
    · exact absurd h (by simp)
    next hne =>
      simp only [Except.ok.injEq, Prod.mk.injEq] at h
      obtain ⟨h1, h2⟩ := h
      subst h1; subst h2
      exact ⟨split_exclusive_once_eq _ _ _ _ hs, hne⟩
  next hs =>
    split at h
    · exact absurd h (by simp)
    next hne =>
      simp only [Except.ok.injEq, Prod.mk.injEq] at h
      obtain ⟨h1, h2⟩ := h
      subst h1; subst h2
      exact ⟨by simp, hne⟩

theorem tag_ok_suffix (input r n : Str) (h : tag_parse_no_whitespace input = .ok (r, n)) :
    r <:+ input :=
  ⟨n, (tag_ok_split input r n h).1.symm⟩

theorem splitOnce_eq (sep : Char) (input : Str) (a b : Str)
    (h : splitOnce sep input = some (a, b)) : input = a ++ sep :: b := by
  induction input generalizing a b with
  | nil => simp [splitOnce] at h
  | cons c cs ih =>
    unfold splitOnce at h
    split at h
    next hc =>
      simp only [Option.some.injEq, Prod.mk.injEq] at h
      obtain ⟨h1, h2⟩ := h
      subst h1; subst h2
      rw [hc]
      rfl
    next hc =>
      cases hs : splitOnce sep cs with
      | none => simp [hs] at h
      | some q =>
        obtain ⟨qa, qb⟩ := q
        simp only [hs, Option.map_some', Option.some.injEq, Prod.mk.injEq] at h
        obtain ⟨h1, h2⟩ := h
        subst h1; subst h2
        simpa using ih qa qb hs

theorem splitOnce_suffix (sep : Char) (input a b : Str)
    (h : splitOnce sep input = some (a, b)) : b <:+ input :=
  ⟨a ++ [sep], by rw [splitOnce_eq sep input a b h]; simp⟩

theorem quote_nested_ok_suffix (input r c : Str) (h : quote_nested input = .ok (r, c)) :
    r <:+ input :=
  delimited_ok_suffix _ _ _ _ h

theorem get_attribute_key_ok_suffix (key r n : Str)
    (h : get_attribute_key key = .ok (r, n)) : r <:+ key := by
  cases key with
  | nil => simp [get_attribute_key] at h
  | cons c k =>
    simp only [get_attribute_key] at h
    split at h
    · exact absurd h (by simp)
    · split at h
      next r' n' heq =>
        simp only [Except.ok.injEq, Prod.mk.injEq] at h
        obtain ⟨h1, h2⟩ := h
        subst h1
        exact (tag_ok_suffix _ _ _ heq).trans (List.suffix_cons _ _)
      · exact absurd h (by simp)

theorem attribute_ok_suffix (input : Str) (r : Str) (a : Attribute)
    (h : attribute_parse_no_whitespace input = .ok (r, a)) : r <:+ input := by
  unfold attribute_parse_no_whitespace at h
  split at h
  next c idValue =>
    split at h
    next r' n' heq =>
      simp only [Except.ok.injEq, Prod.mk.injEq] at h
      obtain ⟨h1, h2⟩ := h
      subst h1
      exact (tag_ok_suffix _ _ _ heq).trans (List.suffix_cons _ _)
    · exact absurd h (by simp)
  next hne =>
    split at h
    · split at h
      next r' n' heq =>
        simp only [Except.ok.injEq, Prod.mk.injEq] at h
        obtain ⟨h1, h2⟩ := h
        subst h1
        exact get_attribute_key_ok_suffix _ _ _ heq
      · exact absurd h (by simp)
    next key rest heq =>
      split at h
      · exact absurd h (by simp)
      next r' v heq2 =>
        split at h
        · exact absurd h (by simp)
        next r'' k heq3 =>
          simp only [Except.ok.injEq, Prod.mk.injEq] at h
          obtain ⟨h1, h2⟩ := h
          subst h1
          exact ((quote_nested_ok_suffix _ _ _ heq2).trans
            (trimStart_suffix rest)).trans (splitOnce_suffix _ _ _ _ heq)

theorem text_ok_suffix (input r c : Str) (h : text_parse_no_whitespace input = .ok (r, c)) :
    r <:+ input :=
  delimited_ok_suffix _ _ _ _ h

theorem comment_ok_suffix (input r : Str) (cm : Comment)
    (h : comment_parse_no_whitespace input = .ok (r, cm)) : r <:+ input := by
  unfold comment_parse_no_whitespace at h
  split at h
  next rest hshape =>
    split at h
    next line rest' heq =>
      simp only [Except.ok.injEq, Prod.mk.injEq] at h
      obtain ⟨h1, h2⟩ := h
      subst h1
      refine ((splitOnce_suffix _ _ _ _ heq).trans ?_).trans (trimStart_suffix input)
      rw [hshape]
      exact (List.suffix_cons _ _).trans (List.suffix_cons _ _)
    · simp only [Except.ok.injEq, Prod.mk.injEq] at h
      obtain ⟨h1, h2⟩ := h
      subst h1
      exact List.nil_suffix
  next =>
    split at h
    next rest' content heq =>
      simp only [Except.ok.injEq, Prod.mk.injEq] at h
      obtain ⟨h1, h2⟩ := h
      subst h1
      exact (nested_ok_suffix _ _ _ _ _ heq).trans (trimStart_suffix input)
    · exact absurd h (by simp)

theorem consumeCommentsAux_suffix (fuel : Nat) (input : Str) :
    consumeCommentsAux fuel input <:+ input := by
  induction fuel generalizing input with
  | zero => exact trimStart_suffix input
  | succ fuel ih =>
    unfold consumeCommentsAux
    split
    next rest cm heq =>
      exact (ih rest).trans ((comment_ok_suffix _ _ _ heq).trans (trimStart_suffix input))
    · exact trimStart_suffix input

theorem consume_comments_suffix (input : Str) : consume_comments input <:+ input :=
  consumeCommentsAux_suffix _ input

theorem elementAux_ok_suffix (fuel : Nat) (input r : Str) (el : Element)
    (h : elementAux fuel input = .ok (r, el)) : r <:+ input := by
  match fuel, h with
  | fuel + 1, h =>
    unfold elementAux at h
    split at h
    · exact absurd h (by simp)
    next rest name heq =>
      split at h
      · exact absurd h (by simp)
      next restOut content heq2 =>
        split at h
        · exact absurd h (by simp)
        next attrs children heq3 =>
          simp only [Except.ok.injEq, Prod.mk.injEq] at h
          obtain ⟨h1, h2⟩ := h
          subst h1
          exact ((nested_ok_suffix _ _ _ _ _ heq2).trans
            (consume_comments_suffix rest)).trans (tag_ok_suffix _ _ _ heq)

theorem nodeAux_ok_suffix (fuel : Nat) (input r : Str) (n : Node)
    (h : nodeAux fuel input = .ok (r, n)) : r <:+ input := by
  match fuel, h with
  | fuel + 1, h =>
    unfold nodeAux at h
    split at h
    next rest t heq =>
      simp only [Except.ok.injEq, Prod.mk.injEq] at h
      obtain ⟨h1, h2⟩ := h
      subst h1
      exact (text_ok_suffix _ _ _ heq).trans (consume_comments_suffix input)
    · split at h
      next rest el heq =>
        simp only [Except.ok.injEq, Prod.mk.injEq] at h
        obtain ⟨h1, h2⟩ := h
        subst h1
        exact (elementAux_ok_suffix _ _ _ _ heq).trans (consume_comments_suffix input)
      · exact absurd h (by simp)

theorem blockAux_suffix (fuel : Nat) (input : Str) (acc : List Node) :
    (blockAux fuel input acc).1 <:+ input := by
  induction fuel generalizing input acc with
  | zero => exact List.suffix_rfl
  | succ fuel ih =>
    unfold blockAux
    split
    · exact List.suffix_rfl
    · split
      next rest n heq =>
        exact (ih rest _).trans (nodeAux_ok_suffix _ _ _ _ heq)
      · exact List.suffix_rfl

theorem block_ok_suffix (input r : Str) (b : Block)
    (h : block_parse_no_whitespace input = .ok (r, b)) : r <:+ input := by
  unfold block_parse_no_whitespace at h
  simp only [Except.ok.injEq, Prod.mk.injEq] at h
  obtain ⟨h1, h2⟩ := h
  subst h1
  exact blockAux_suffix _ input []

theorem parseManyAux_ok_suffix {α : Type} (p : Str → ParseResult α)
    (hp : ∀ i r x, p i = .ok (r, x) → r <:+ i)
    (fuel : Nat) (input : Str) (acc : List α) (r : Str) (items : List α)
    (h : parseManyAux p fuel input acc = .ok (r, items)) : r <:+ input := by
  induction fuel generalizing input acc with
  | zero =>
    simp only [parseManyAux, Except.ok.injEq, Prod.mk.injEq] at h
    obtain ⟨h1, -⟩ := h
    subst h1
    exact List.suffix_rfl
  | succ fuel ih =>
    unfold parseManyAux at h
    split at h
    · simp only [Except.ok.injEq, Prod.mk.injEq] at h
      obtain ⟨h1, -⟩ := h
      subst h1
      exact List.suffix_rfl
    · split at h
      next rest item heq =>
        exact (ih rest _ h).trans ((hp _ _ _ heq).trans (trimStart_suffix input))
      · simp only [Except.ok.injEq, Prod.mk.injEq] at h
        obtain ⟨h1, -⟩ := h
        subst h1
        exact List.suffix_rfl

theorem parse_many_ok_suffix {α : Type} (p : Str → ParseResult α)
    (hp : ∀ i r x, p i = .ok (r, x) → r <:+ i)
    (input r : Str) (items : List α)
    (h : parse_many p input = .ok (r, items)) : r <:+ input :=
  parseManyAux_ok_suffix p hp _ input [] r items h

theorem parseManyICAux_suffix {α : Type} (p : Str → ParseResult α)
    (hp : ∀ i r x, p i = .ok (r, x) → r <:+ i)
    (fuel : Nat) (input : Str) (acc : List α) :
    (parseManyICAux p fuel input acc).1 <:+ input := by
  induction fuel generalizing input acc with
  | zero => exact List.suffix_rfl
  | succ fuel ih =>
    unfold parseManyICAux
    split
    next rest item heq =>
      exact (ih rest _).trans ((hp _ _ _ heq).trans (consume_comments_suffix input))
    · exact List.suffix_rfl

theorem parse_n_ok_suffix {α : Type} (p : Str → ParseResult α)
    (hp : ∀ i r x, p i = .ok (r, x) → r <:+ i)
    (n : Nat) (input r : Str) (items : List α)
    (h : parse_n p n input = .ok (r, items)) : r <:+ input := by
  induction n generalizing input items with
  | zero =>
    simp only [parse_n, Except.ok.injEq, Prod.mk.injEq] at h
    obtain ⟨h1, -⟩ := h
    subst h1
    exact List.suffix_rfl
  | succ n ih =>
    unfold parse_n at h
    split at h
    · exact absurd h (by simp)
    · split at h
      next rest item heq =>
        cases hrec : parse_n p n rest with
        | error e => rw [hrec] at h; exact absurd h (by simp [Except.map])
        | ok q =>
          rw [hrec] at h
          simp only [Except.map, Except.ok.injEq, Prod.mk.injEq] at h
          obtain ⟨h1, -⟩ := h
          subst h1
          exact ((ih rest _ hrec).trans (hp _ _ _ heq)).trans (trimStart_suffix input)
      · exact absurd h (by simp)

/-! ### Progress: successful parses consume input -/

theorem isPrefixOf_append (p l : Str) (h : p.isPrefixOf l = true) :
    l = p ++ l.drop p.length := by
  induction p generalizing l with
  | nil => simp
  | cons a as ih =>
    cases l with
    | nil => simp [List.isPrefixOf] at h
    | cons b bs =>
      simp only [List.isPrefixOf, Bool.and_eq_true, beq_iff_eq] at h
      obtain ⟨h1, h2⟩ := h
      subst h1
      simpa using ih bs h2

theorem isPrefixOf_length_le (p l : Str) (h : p.isPrefixOf l = true) :
    p.length ≤ l.length := by
  rw [isPrefixOf_append p l h]
  simp

theorem findPat_some_matches (pat w : Str) (i : Nat) (h : findPat pat w = some i) :
    pat.isPrefixOf (w.drop i) = true := by
  induction w generalizing i with
  | nil =>
    unfold findPat at h
    split at h
    next hp => simp only [Option.some.injEq] at h; subst h; simpa using hp
    · exact absurd h (by simp)
  | cons c cs ih =>
    unfold findPat at h
    split at h
    next hp =>
      simp only [Option.some.injEq] at h
      subst h
      simpa using hp
    · cases hs : findPat pat cs with
      | none => simp [hs] at h
      | some j =>
        simp only [hs, Option.map_some', Option.some.injEq] at h
        subst h
        simpa using ih j hs

theorem nextDelim_some_matches (s e w : Str) (rel : Nat) (b : Bool)
    (h : nextDelim s e w = some (rel, b)) :
    (b = true → s.isPrefixOf (w.drop rel) = true) ∧
    (b = false → e.isPrefixOf (w.drop rel) = true) := by
  cases hps : findPat s w with
  | some ps =>
    cases hpe : findPat e w with
    | some pe =>
      simp only [nextDelim, hps, hpe] at h
      split at h
      · simp only [Option.some.injEq, Prod.mk.injEq] at h
        obtain ⟨h1, h2⟩ := h
        subst h1; subst h2
        exact ⟨fun _ => findPat_some_matches _ _ _ hps, fun hf => by simp at hf⟩
      · simp only [Option.some.injEq, Prod.mk.injEq] at h
        obtain ⟨h1, h2⟩ := h
        subst h1; subst h2
        exact ⟨fun hf => by simp at hf, fun _ => findPat_some_matches _ _ _ hpe⟩
    | none =>
      simp only [nextDelim, hps, hpe, Option.some.injEq, Prod.mk.injEq] at h
      obtain ⟨h1, h2⟩ := h
      subst h1; subst h2
      exact ⟨fun _ => findPat_some_matches _ _ _ hps, fun hf => by simp at hf⟩
  | none =>
    cases hpe : findPat e w with
    | some pe =>
      simp only [nextDelim, hps, hpe, Option.some.injEq, Prod.mk.injEq] at h
      obtain ⟨h1, h2⟩ := h
      subst h1; subst h2
      exact ⟨fun hf => by simp at hf, fun _ => findPat_some_matches _ _ _ hpe⟩
    | none => simp [nextDelim, hps, hpe] at h

theorem nestedAux_ok_closing (s e A : Str) (fuel offset depth : Nat) (r c : Str)
    (h : nestedAux s e A fuel offset depth = .ok (r, c)) :
    ∃ q, r = A.drop (q + e.length) ∧ c = A.take q ∧ e.isPrefixOf (A.drop q) = true := by
  induction fuel generalizing offset depth with
  | zero => exact absurd h (by simp [nestedAux])
  | succ fuel ih =>
    unfold nestedAux at h
    split at h
    · exact absurd h (by simp)
    next rel isStart heq =>
      split at h
      · exact ih _ _ h
      · split at h
        · exact ih _ _ h
        next hb =>
          split at h
          · simp only [Except.ok.injEq, Prod.mk.injEq] at h
            obtain ⟨h1, h2⟩ := h
            refine ⟨offset + rel, h1.symm, h2.symm, ?_⟩
            have hbf : isStart = false := by revert hb; cases isStart <;> simp
            have hm := (nextDelim_some_matches s e _ rel isStart heq).2 hbf
            rwa [List.drop_drop] at hm
          · exact ih _ _ h

theorem nested_ne_ok_progress (input s e r c : Str) (hne : s ≠ e)
    (h : nested input s e = .ok (r, c)) :
    r.length + s.length + e.length ≤ (trimStart input).length ∧
      c.length + s.length + e.length ≤ (trimStart input).length := by
  unfold nested at h
  split at h
  · exact absurd h (by simp)
  next hpre =>
    · obtain ⟨q, h1, h2, h3⟩ := nestedAux_ok_closing _ _ _ _ _ _ _ _ h
      rw [not_not] at hpre
      have hA : (trimStart input).length =
          s.length + ((trimStart input).drop s.length).length := by
        conv_lhs => rw [isPrefixOf_append s _ hpre]
        simp
      have hle : e.length ≤ (((trimStart input).drop s.length).drop q).length :=
        isPrefixOf_length_le _ _ h3
      subst h1; subst h2
      simp only [List.length_drop, List.length_take] at *
      omega

theorem delimitedAux_some_matches (delim : Str) (fuel : Nat) (prev : Option Char)
    (w : Str) (i : Nat) (h : delimitedAux delim fuel prev w = some i) :
    delim.isPrefixOf (w.drop i) = true := by
  induction fuel generalizing prev w i with
  | zero => simp [delimitedAux] at h
  | succ fuel ih =>
    cases w with
    | nil =>
      simp only [delimitedAux] at h
      split at h
      next hd =>
        simp only [Option.some.injEq] at h
        subst h
        rw [List.isEmpty_iff] at hd
        subst hd
        rfl
      · exact absurd h (by simp)
    | cons c cs =>
      simp only [delimitedAux] at h
      split at h
      next hd =>
        split at h
        · cases hs : delimitedAux delim fuel delim.getLast? ((c :: cs).drop delim.length) with
          | none => rw [hs] at h; simp at h
          | some j =>
            rw [hs] at h
            simp only [Option.map_some', Option.some.injEq] at h
            subst h
            have h2 := ih _ _ _ hs
            rw [List.drop_drop] at h2
            rwa [Nat.add_comm]
        · simp only [Option.some.injEq] at h
          subst h
          simpa using hd
      · cases hs : delimitedAux delim fuel (some c) cs with
        | none => rw [hs] at h; simp at h
        | some j =>
          rw [hs] at h
          simp only [Option.map_some', Option.some.injEq] at h
          subst h
          simpa using ih _ _ _ hs

theorem delimited_ok_progress (input d r c : Str) (h : delimited input d = .ok (r, c)) :
    r.length + 2 * d.length ≤ (trimStart input).length ∧
      c.length + 2 * d.length ≤ (trimStart input).length := by
  unfold delimited at h
  split at h
  · exact absurd h (by simp)
  next hpre =>
    split at h
    next i heq =>
      simp only [Except.ok.injEq, Prod.mk.injEq] at h
      obtain ⟨h1, h2⟩ := h
      rw [not_not] at hpre
      have hw : (trimStart input).length =
          d.length + ((trimStart input).drop d.length).length := by
        conv_lhs => rw [isPrefixOf_append d _ hpre]
        simp
      have hle : d.length ≤ (((trimStart input).drop d.length).drop i).length :=
        isPrefixOf_length_le _ _ (delimitedAux_some_matches _ _ _ _ _ heq)
      subst h1; subst h2
      simp only [List.length_drop, List.length_take] at *
      omega
    · exact absurd h (by simp)

theorem quote_nested_ok_progress (input r c : Str) (h : quote_nested input = .ok (r, c)) :
    r.length + 2 ≤ (trimStart input).length ∧ c.length + 2 ≤ (trimStart input).length := by
  have hp := delimited_ok_progress input ['"'] r c h
  simpa using hp

theorem comment_ok_progress (input r : Str) (cm : Comment)
    (h : comment_parse_no_whitespace input = .ok (r, cm)) :
    r.length + 2 ≤ (trimStart input).length := by
  unfold comment_parse_no_whitespace at h
  split at h
  next rest hshape =>
    split at h
    next line rest' heq =>
      simp only [Except.ok.injEq, Prod.mk.injEq] at h
      obtain ⟨h1, -⟩ := h
      have hlr := congrArg List.length h1
      have he := splitOnce_eq _ _ _ _ heq
      have hlen : rest.length = line.length + 1 + rest'.length := by
        rw [he]; simp [List.length_append]; omega
      rw [hshape]
      simp only [List.length_cons]
      omega
    · simp only [Except.ok.injEq, Prod.mk.injEq] at h
      obtain ⟨h1, -⟩ := h
      have hlr := congrArg List.length h1
      simp only [List.length_nil] at hlr
      rw [hshape]
      simp only [List.length_cons]
      omega
  next =>
    split at h
    next rest' content heq =>
      simp only [Except.ok.injEq, Prod.mk.injEq] at h
      obtain ⟨h1, -⟩ := h
      have hlr := congrArg List.length h1
      have hp := nested_ne_ok_progress (trimStart input) "/*".data "*/".data rest' content
        (by decide) heq
      rw [trimStart_idem] at hp
      simp only [String.data, List.length_cons, List.length_nil] at hp
      omega
    · exact absurd h (by simp)

theorem comment_parse_trimStart (input : Str) :
    comment_parse_no_whitespace (trimStart input) = comment_parse_no_whitespace input := by
  unfold comment_parse_no_whitespace
  rw [trimStart_idem]

theorem consumeCommentsAux_exit (fuel : Nat) (input : Str) (hf : input.length < fuel) :
    (comment_parse_no_whitespace (consumeCommentsAux fuel input)).isOk = false ∧
      trimStart (consumeCommentsAux fuel input) = consumeCommentsAux fuel input := by
  induction fuel generalizing input with
  | zero => omega
  | succ fuel ih =>
    unfold consumeCommentsAux
    split
    next rest cm heq =>
      apply ih
      have hprog := comment_ok_progress _ _ _ heq
      rw [trimStart_idem] at hprog
      have hts := trimStart_length_le input
      omega
    next heq =>
      refine ⟨?_, trimStart_idem input⟩
      rw [heq]
      rfl

theorem consume_comments_exit (input : Str) :
    (comment_parse_no_whitespace (consume_comments input)).isOk = false ∧
      trimStart (consume_comments input) = consume_comments input :=
  consumeCommentsAux_exit _ _ (Nat.lt_succ_self _)

/-- C6: the comment skipper is total (it is a plain function into `Str`,
never an error) and idempotent: a second pass returns the first pass's
result unchanged; and when no comment is present it is the identity up to
leading whitespace. -/
theorem consume_comments_total_idempotent :
    (∀ input : Str, consume_comments (consume_comments input) = consume_comments input) ∧
    (∀ input : Str, (comment_parse_no_whitespace input).isOk = false →
      consume_comments input = trimStart input) := by
  constructor
  · intro input
    obtain ⟨h1, h2⟩ := consume_comments_exit input
    show consumeCommentsAux _ (consume_comments input) = _
    unfold consumeCommentsAux
    rw [h2]
    cases hc : comment_parse_no_whitespace (consume_comments input) with
    | ok q => rw [hc] at h1; simp [Except.isOk, Except.toBool] at h1
    | error e => rfl
  · intro input h
    show consumeCommentsAux _ input = _
    unfold consumeCommentsAux
    rw [comment_parse_trimStart]
    cases hc : comment_parse_no_whitespace input with
    | ok q => rw [hc] at h; simp [Except.isOk, Except.toBool] at h
    | error e => rfl

/-- Witness for the comment-skipper theorem: on `"x"`, which holds no
comment, the skipper is the identity up to trimming. -/
theorem consume_comments_total_idempotent_witness :
    consume_comments " x".data = "x".data :=
  consume_comments_total_idempotent.2 " x".data (by rfl)

/-! ### Progress for the entity parsers -/

theorem tag_ok_progress (input r n : Str) (h : tag_parse_no_whitespace input = .ok (r, n)) :
    r.length < input.length := by
  obtain ⟨heq, hne⟩ := tag_ok_split input r n h
  rw [heq]
  simp only [List.length_append]
  cases n with
  | nil => simp at hne
  | cons a as => simp

theorem get_attribute_key_ok_progress (key r n : Str)
    (h : get_attribute_key key = .ok (r, n)) : r.length < key.length := by
  cases key with
  | nil => simp [get_attribute_key] at h
  | cons c k =>
    simp only [get_attribute_key] at h
    split at h
    · exact absurd h (by simp)
    · split at h
      next r' n' heq =>
        simp only [Except.ok.injEq, Prod.mk.injEq] at h
        obtain ⟨h1, -⟩ := h
        have := tag_ok_progress _ _ _ heq
        have hlr := congrArg List.length h1
        simp only [List.length_cons]
        omega
      · exact absurd h (by simp)

theorem attribute_ok_progress (input r : Str) (a : Attribute)
    (h : attribute_parse_no_whitespace input = .ok (r, a)) : r.length < input.length := by
  unfold attribute_parse_no_whitespace at h
  split at h
  next c idValue =>
    split at h
    next r' n' heq =>
      simp only [Except.ok.injEq, Prod.mk.injEq] at h
      obtain ⟨h1, -⟩ := h
      have := tag_ok_progress _ _ _ heq
      have hlr := congrArg List.length h1
      simp only [List.length_cons]
      omega
    · exact absurd h (by simp)
  next =>
    split at h
    · split at h
      next r' n' heq =>
        simp only [Except.ok.injEq, Prod.mk.injEq] at h
        obtain ⟨h1, -⟩ := h
        have := get_attribute_key_ok_progress _ _ _ heq
        have hlr := congrArg List.length h1
        omega
      · exact absurd h (by simp)
    next key rest heq =>
      split at h
      · exact absurd h (by simp)
      next r' v heq2 =>
        split at h
        · exact absurd h (by simp)
        next r'' k heq3 =>
          simp only [Except.ok.injEq, Prod.mk.injEq] at h
          obtain ⟨h1, -⟩ := h
          have hq := (quote_nested_ok_progress _ _ _ heq2).1
          rw [trimStart_idem] at hq
          have h4 := trimStart_length_le rest
          have h5 := congrArg List.length (splitOnce_eq _ _ _ _ heq)
          simp only [List.length_append, List.length_cons] at h5
          have hlr := congrArg List.length h1
          omega

theorem text_ok_progress (input r c : Str) (h : text_parse_no_whitespace input = .ok (r, c)) :
    r.length < input.length := by
  have hp := (quote_nested_ok_progress input r c h).1
  have := trimStart_length_le input
  omega

theorem elementAux_ok_progress (fuel : Nat) (input r : Str) (el : Element)
    (h : elementAux fuel input = .ok (r, el)) : r.length < input.length := by
  match fuel, h with
  | fuel + 1, h =>
    unfold elementAux at h
    split at h
    · exact absurd h (by simp)
    next rest name heq =>
      split at h
      · exact absurd h (by simp)
      next restOut content heq2 =>
        split at h
        · exact absurd h (by simp)
        next attrs children heq3 =>
          simp only [Except.ok.injEq, Prod.mk.injEq] at h
          obtain ⟨h1, -⟩ := h
          have htag := tag_ok_progress _ _ _ heq
          have hn := nested_ne_ok_progress _ _ _ _ _ (by decide) heq2
          have hc1 := trimStart_length_le (consume_comments rest)
          have hc2 := (consume_comments_suffix rest).length_le
          have hlr := congrArg List.length h1
          simp only [List.length_cons, List.length_nil] at hn
          omega

theorem nodeAux_ok_progress (fuel : Nat) (input r : Str) (n : Node)
    (h : nodeAux fuel input = .ok (r, n)) : r.length < input.length := by
  match fuel, h with
  | fuel + 1, h =>
    unfold nodeAux at h
    split at h
    next rest t heq =>
      simp only [Except.ok.injEq, Prod.mk.injEq] at h
      obtain ⟨h1, -⟩ := h
      have := text_ok_progress _ _ _ heq
      have hc := (consume_comments_suffix input).length_le
      have hlr := congrArg List.length h1
      omega
    · split at h
      next rest el heq =>
        simp only [Except.ok.injEq, Prod.mk.injEq] at h
        obtain ⟨h1, -⟩ := h
        have := elementAux_ok_progress _ _ _ _ heq
        have hc := (consume_comments_suffix input).length_le
        have hlr := congrArg List.length h1
        omega
      · exact absurd h (by simp)

/-- C9: termination.  Every embedded parse function is a total Lean
function, and the facts that make the source's recursion well-founded
hold: the balanced scanner hands back a body span and remainder that are
strictly shorter than its (trimmed) input, and every successful
Element/Node/Attribute/Text/Tag/Comment parse strictly consumes input, so
the mutual element/node recursion and every repetition loop strictly
descend on input length. -/
theorem parsers_terminate :
    (∀ input s e r c, ¬ s.isEmpty → ¬ e.isEmpty → s ≠ e →
      nested input s e = .ok (r, c) →
      r.length < input.length ∧ c.length < input.length) ∧
    (∀ fuel input r el, elementAux fuel input = .ok (r, el) → r.length < input.length) ∧
    (∀ fuel input r n, nodeAux fuel input = .ok (r, n) → r.length < input.length) ∧
    (∀ input r a, attribute_parse_no_whitespace input = .ok (r, a) →
      r.length < input.length) ∧
    (∀ input r c, text_parse_no_whitespace input = .ok (r, c) → r.length < input.length) ∧
    (∀ input r n, tag_parse_no_whitespace input = .ok (r, n) → r.length < input.length) ∧
    (∀ input r cm, comment_parse_no_whitespace input = .ok (r, cm) →
      r.length < input.length) := by
  refine ⟨?_, elementAux_ok_progress, nodeAux_ok_progress, attribute_ok_progress,
    text_ok_progress, tag_ok_progress, ?_⟩
  · intro input s e r c hs he hne h
    have hp := nested_ne_ok_progress input s e r c hne h
    have ht := trimStart_length_le input
    have hsl : 1 ≤ s.length := by cases s; simp at hs; simp
    have hel : 1 ≤ e.length := by cases e; simp at he; simp
    omega
  · intro input r cm h
    have hp := comment_ok_progress input r cm h
    have ht := trimStart_length_le input
    omega

/-- Witness for the termination theorem: concrete progress of the scanner
on a nested input. -/
theorem parsers_terminate_witness :
    nested "{a{b}c} tail".data ['{'] ['}'] = .ok (" tail".data, "a{b}c".data) ∧
      (" tail".data : Str).length < ("{a{b}c} tail".data : Str).length ∧
      ("a{b}c".data : Str).length < ("{a{b}c} tail".data : Str).length :=
  ⟨by rfl,
    (parsers_terminate.1 "{a{b}c} tail".data ['{'] ['}'] " tail".data "a{b}c".data
      (by decide) (by decide) (by decide) (by rfl)).1,
    (parsers_terminate.1 "{a{b}c} tail".data ['{'] ['}'] " tail".data "a{b}c".data
      (by decide) (by decide) (by decide) (by rfl)).2⟩

/-- C10: every parser of the library — scanner, lexers, node/element
assembly, block, and the generic combinators — returns, on success, a
remainder that is a contiguous trailing suffix of its input: parsers
consume a prefix and never rewrite, duplicate or reorder the surviving
input. -/
theorem remainders_are_suffixes :
    (∀ input d r c, delimited input d = .ok (r, c) → r <:+ input) ∧
    (∀ input s e r c, nested input s e = .ok (r, c) → r <:+ input) ∧
    (∀ input r c, quote_nested input = .ok (r, c) → r <:+ input) ∧
    (∀ input r n, tag_parse_no_whitespace input = .ok (r, n) → r <:+ input) ∧
    (∀ input r a, attribute_parse_no_whitespace input = .ok (r, a) → r <:+ input) ∧
    (∀ input r c, text_parse_no_whitespace input = .ok (r, c) → r <:+ input) ∧
    (∀ input r cm, comment_parse_no_whitespace input = .ok (r, cm) → r <:+ input) ∧
    (∀ input, consume_comments input <:+ input) ∧
    (∀ fuel input r el, elementAux fuel input = .ok (r, el) → r <:+ input) ∧
    (∀ fuel input r n, nodeAux fuel input = .ok (r, n) → r <:+ input) ∧
    (∀ input r b, block_parse_no_whitespace input = .ok (r, b) → r <:+ input) ∧
    (∀ (α : Type) (p : Str → ParseResult α), (∀ i r x, p i = .ok (r, x) → r <:+ i) →
      (∀ input r v, parseTrimmed p input = .ok (r, v) → r <:+ input) ∧
      (∀ input r v, parse_ignoring_comments p input = .ok (r, v) → r <:+ input) ∧
      (∀ input r items, parse_many p input = .ok (r, items) → r <:+ input) ∧
      (∀ input, (parse_many_ignoring_comments p input).1 <:+ input) ∧
      (∀ n input r items, parse_n p n input = .ok (r, items) → r <:+ input)) := by
  refine ⟨delimited_ok_suffix, nested_ok_suffix, quote_nested_ok_suffix, tag_ok_suffix,
    attribute_ok_suffix, text_ok_suffix, comment_ok_suffix, consume_comments_suffix,
    elementAux_ok_suffix, nodeAux_ok_suffix, block_ok_suffix, ?_⟩
  intro α p hp
  refine ⟨?_, ?_, parse_many_ok_suffix p hp, fun input => parseManyICAux_suffix p hp _ _ _, parse_n_ok_suffix p hp⟩
  · intro input r v h
    exact (hp _ _ _ h).trans (trimStart_suffix input)
  · intro input r v h
    exact (hp _ _ _ h).trans (consume_comments_suffix input)

/-- Witness for the suffix invariant: the attribute parser on a concrete
input leaves a suffix of it. -/
theorem remainders_are_suffixes_witness :
    attribute_parse_no_whitespace ".a=\"v\" tail".data = .ok (" tail".data, ⟨"a".data, "v".data⟩) ∧
      " tail".data <:+ ".a=\"v\" tail".data :=
  ⟨by rfl, remainders_are_suffixes.2.2.2.2.1 ".a=\"v\" tail".data " tail".data
    ⟨"a".data, "v".data⟩ (by rfl)⟩

/-! ### C5: Block and the many-combinators never fail -/

theorem parseManyAux_never_fails {α : Type} (p : Str → ParseResult α) (fuel : Nat)
    (input : Str) (acc : List α) :
    ∃ rest items, parseManyAux p fuel input acc = .ok (rest, items) := by
  induction fuel generalizing input acc with
  | zero => exact ⟨input, acc, rfl⟩
  | succ fuel ih =>
    unfold parseManyAux
    split
    · exact ⟨input, acc, rfl⟩
    · split
      · next rest item heq => exact ih rest (acc ++ [item])
      · exact ⟨input, acc, rfl⟩

/-- C5: `Block::parse_no_whitespace` and the repetition combinators
`parse_many` / `parse_many_ignoring_comments` always return successfully:
they accumulate items until the first underlying failure, may yield zero
items, and hand the unparseable trailing content back unconsumed (when the
first attempt already fails, the whole input is the remainder and the item
list is empty). -/
theorem block_and_many_never_fail :
    (∀ input : Str, ∃ rest b, block_parse_no_whitespace input = .ok (rest, b)) ∧
    (∀ (α : Type) (p : Str → ParseResult α) (input : Str),
      ∃ rest items, parse_many p input = .ok (rest, items)) ∧
    (∀ (α : Type) (p : Str → ParseResult α), parse_many p [] = .ok ([], [])) ∧
    (∀ (α : Type) (p : Str → ParseResult α) (input : Str),
      (p (trimStart input)).isOk = false → ¬ (trimStart input).isEmpty →
        parse_many p input = .ok (input, [])) ∧
    (∀ (α : Type) (p : Str → ParseResult α) (input : Str),
      (p (consume_comments input)).isOk = false →
        parse_many_ignoring_comments p input = (input, [])) := by
  refine ⟨?_, ?_, ?_, ?_, ?_⟩
  · intro input
    exact ⟨_, _, rfl⟩
  · intro α p input
    exact parseManyAux_never_fails p _ input []
  · intro α p
    rfl
  · intro α p input hfail hne
    show parseManyAux p _ input [] = _
    unfold parseManyAux
    split
    · rfl
    · cases hc : p (trimStart input) with
      | ok q => rw [hc] at hfail; simp [Except.isOk, Except.toBool] at hfail
      | error e => rfl
  · intro α p input hfail
    show parseManyICAux p _ input [] = _
    unfold parseManyICAux
    cases hc : p (consume_comments input) with
    | ok q => rw [hc] at hfail; simp [Except.isOk, Except.toBool] at hfail
    | error e => rfl

/-- Witness for the never-fails theorem: the attribute combinators on an
input that parses no attribute yield zero items and the untouched
remainder. -/
theorem block_and_many_never_fail_witness :
    parse_many attribute_parse_no_whitespace "x y".data = .ok ("x y".data, []) :=
  block_and_many_never_fail.2.2.2.1 Attribute attribute_parse_no_whitespace "x y".data
    (by rfl) (by decide)

/-! ### Computation lemmas on well-formed inputs -/

theorem isTagChar_not_ws (c : Char) (h : isTagChar c = true) : c.isWhitespace = false := by
  by_contra hw
  rw [Bool.not_eq_false] at hw
  have hc : ((c = ' ' ∨ c = '\t') ∨ c = '\x0d') ∨ c = '\n' := by
    simpa [Char.isWhitespace] using hw
  rcases hc with ((h1 | h1) | h1) | h1 <;> subst h1 <;> simp [isTagChar] at h

theorem trimStart_ws_append (ws l : Str) (h : ∀ c ∈ ws, c.isWhitespace = true) :
    trimStart (ws ++ l) = trimStart l := by
  induction ws with
  | nil => rfl
  | cons c cs ih =>
    have hc := h c (by simp)
    simp only [List.cons_append, trimStart, List.dropWhile, hc]
    exact ih fun x hx => h x (by simp [hx])

theorem trimEnd_append_ws (l ws : Str) (h : ∀ c ∈ ws, c.isWhitespace = true)
    (hl : ∀ c, l.getLast? = some c → c.isWhitespace = false) :
    trimEnd (l ++ ws) = l := by
  unfold trimEnd
  rw [List.reverse_append, List.dropWhile_append]
  have hws : ws.reverse.dropWhile Char.isWhitespace = [] := by
    rw [List.dropWhile_eq_nil_iff]
    intro x hx
    exact h x (by simpa using hx)
  simp only [hws, List.isEmpty_nil, if_true]
  cases hl' : l.reverse with
  | nil =>
    have h0 : l = [] := by simpa using congrArg List.reverse hl'
    subst h0
    rfl
  | cons a as =>
    have ha : l.getLast? = some a := by
      rw [List.getLast?_eq_head?_reverse, hl']
      rfl
    have hna := hl a ha
    simp only [List.dropWhile, hna]
    have := congrArg List.reverse hl'
    simpa using this.symm

theorem split_exclusive_once_none (l : Str) (p : Char → Bool)
    (h : ∀ c ∈ l, p c = false) : split_exclusive_once l p = none := by
  induction l with
  | nil => rfl
  | cons c cs ih =>
    have hc := h c (by simp)
    simp only [split_exclusive_once, hc]
    rw [ih fun x hx => h x (by simp [hx])]
    simp

theorem split_exclusive_once_append (l : Str) (p : Char → Bool) (r : Str)
    (hl : ∀ c ∈ l, p c = false) (hr : ∀ c, r.head? = some c → p c = true) :
    split_exclusive_once (l ++ r) p = if r.isEmpty then none else some (l, r) := by
  induction l with
  | nil =>
    cases r with
    | nil => rfl
    | cons a as =>
      have := hr a rfl
      simp [split_exclusive_once, this]
  | cons c cs ih =>
    have hc := hl c (by simp)
    simp only [List.cons_append, split_exclusive_once, hc, Bool.false_eq_true, if_false,
      List.append_eq]
    rw [ih fun x hx => hl x (by simp [hx])]
    cases r with
    | nil => simp
    | cons a as => simp

/-- The tag lexer on a well-formed name followed by a non-name remainder. -/
theorem tag_parse_append (name rest : Str) (h1 : ¬ name.isEmpty)
    (h2 : name.all isTagChar) (h3 : ∀ c, rest.head? = some c → isTagChar c = false) :
    tag_parse_no_whitespace (name ++ rest) = .ok (rest, name) := by
  unfold tag_parse_no_whitespace
  rw [split_exclusive_once_append name _ rest
    (fun c hc => by have := List.all_eq_true.mp h2 c hc; simp [this])
    (fun c hc => by have := h3 c hc; simp [this])]
  cases r : rest with
  | nil =>
    simp only [List.isEmpty_nil, if_true]
    have : ¬ (name ++ []).isEmpty := by simpa using h1
    simp [this]
    simpa using h1
  | cons a as =>
    simp only [List.isEmpty_cons, if_false]
    simp [h1]

theorem splitOnce_none (sep : Char) (l : Str) (h : ∀ c ∈ l, ¬ c = sep) :
    splitOnce sep l = none := by
  induction l with
  | nil => rfl
  | cons c cs ih =>
    have hc := h c (by simp)
    simp only [splitOnce, if_neg hc, List.append_eq]
    rw [ih fun x hx => h x (by simp [hx])]
    simp

theorem splitOnce_append (sep : Char) (k t : Str) (h : ∀ c ∈ k, ¬ c = sep) :
    splitOnce sep (k ++ sep :: t) = some (k, t) := by
  induction k with
  | nil => simp [splitOnce]
  | cons c cs ih =>
    have hc := h c (by simp)
    simp only [List.cons_append, splitOnce, if_neg hc, List.append_eq]
    rw [ih fun x hx => h x (by simp [hx])]
    simp

/-- The closing-quote search on a span whose quotes are all escaped and
whose closing quote is unescaped. -/
theorem delimitedAux_quote (content : Str) (prev : Option Char) (rest : Str) (fuel : Nat)
    (hq : quoteOk prev content = true) (hf : content.length < fuel) :
    delimitedAux ['"'] fuel prev (content ++ '"' :: rest) = some content.length := by
  induction content generalizing prev fuel with
  | nil =>
    match fuel, hf with
    | fuel + 1, _ =>
      simp only [delimitedAux, List.nil_append]
      have hpre : List.isPrefixOf ['"'] ('"' :: rest) = true := by
        simp [List.isPrefixOf]
      rw [if_pos hpre, if_neg (by simp only [quoteOk] at hq; simpa using hq)]
      rfl
  | cons c cs ih =>
    match fuel, hf with
    | fuel + 1, hf =>
      simp only [delimitedAux, List.cons_append]
      simp only [quoteOk, Bool.and_eq_true] at hq
      obtain ⟨hq1, hq2⟩ := hq
      by_cases hc : c = '"'
      · subst hc
        have hpre : List.isPrefixOf ['"'] ('"' :: (cs ++ '"' :: rest)) = true := by
          simp [List.isPrefixOf]
        have hprev : (prev == some '\\') = true := by simpa using hq1
        rw [if_pos hpre, if_pos hprev]
        have hgl : List.getLast? ['"'] = some '"' := rfl
        have hdr : ('"' :: (cs ++ '"' :: rest)).drop (List.length ['"']) = cs ++ '"' :: rest :=
          rfl
        rw [hgl, hdr, ih (some '"') fuel hq2 (by simp at hf; omega)]
        simp [Nat.add_comm]
      · have hpre : List.isPrefixOf ['"'] (c :: (cs ++ '"' :: rest)) = false := by
          simp [List.isPrefixOf]
          exact fun hcc => absurd hcc.symm hc
        rw [if_neg (by simp [hpre])]
        rw [ih (some c) fuel hq2 (by simp at hf; omega)]
        simp

/-- `quote_nested` on a well-formed quoted literal returns the span
verbatim (escapes preserved) and the remainder after the closing quote. -/
theorem quote_nested_append (content rest : Str) (hq : quoteOk none content = true) :
    quote_nested ('"' :: (content ++ ('"' :: rest))) = .ok (rest, content) := by
  unfold quote_nested delimited
  have ht : trimStart ('"' :: (content ++ ('"' :: rest))) = '"' :: (content ++ ('"' :: rest)) := by
    apply trimStart_eq_self
    intro c hc
    simp only [List.head?_cons, Option.some.injEq] at hc
    subst hc
    decide
  rw [ht]
  have hpre : List.isPrefixOf ['"'] ('"' :: (content ++ ('"' :: rest))) = true := by
    simp [List.isPrefixOf]
  rw [if_neg (by simp [hpre])]
  simp only [List.cons_append, List.length_cons, List.length_nil, List.drop_succ_cons,
    List.drop_zero, Nat.zero_add]
  rw [delimitedAux_quote content none rest _ hq (by simp [List.length_append]; omega)]
  have h1 : (content ++ '"' :: rest).take content.length = content :=
    List.take_left content ('"' :: rest)
  have h2 : (content ++ '"' :: rest).drop (content.length + 1) = rest := by
    have hx : content ++ '"' :: rest = (content ++ ['"']) ++ rest := by simp
    rw [hx]
    have hlen : content.length + 1 = (content ++ ['"']).length := by simp
    rw [hlen]
    exact List.drop_left _ _
  show Except.ok ((content ++ '"' :: rest).drop (content.length + 1),
    (content ++ '"' :: rest).take content.length) = _
  rw [h1, h2]

/-- `get_attribute_key` on a well-formed dotted name. -/
theorem get_attribute_key_name (name rest : Str) (h1 : ¬ name.isEmpty)
    (h2 : name.all isTagChar) (h3 : ∀ c, rest.head? = some c → isTagChar c = false) :
    get_attribute_key ('.' :: (name ++ rest)) = .ok (rest, name) := by
  simp only [get_attribute_key]
  rw [if_neg (by simp)]
  rw [tag_parse_append name rest h1 h2 h3]

theorem ne_eq_of_tag (c : Char) (h : isTagChar c = true) : ¬ c = '=' := by
  intro heq
  subst heq
  simp [isTagChar] at h

theorem ne_eq_of_ws (c : Char) (h : c.isWhitespace = true) : ¬ c = '=' := by
  intro heq
  subst heq
  simp [Char.isWhitespace] at h

theorem getLast_cons_name (name : Str) (h1 : ¬ name.isEmpty) (h2 : name.all isTagChar) :
    ∀ c, ('.' :: name).getLast? = some c → c.isWhitespace = false := by
  intro c hc
  cases name with
  | nil => simp at h1
  | cons a as =>
    have : ('.' :: (a :: as)).getLast? = (a :: as).getLast? := by
      rw [List.getLast?_cons_cons]
    rw [this] at hc
    have hmem : c ∈ a :: as := List.mem_of_mem_getLast? hc
    exact isTagChar_not_ws c (List.all_eq_true.mp h2 c hmem)

/-- Counterexample to C2 as stated: `.a b="v"` has arbitrary junk (`b`)
between the attribute name and the `=`, which the claim says must fail
with `InvalidInput`; the parser instead succeeds with `{a, v}`, because
`get_attribute_key`'s remainder is discarded. -/
theorem attribute_malformed_name_accepted :
    attribute_parse_no_whitespace ".a b=\"v\"".data =
      .ok ([], ⟨"a".data, "v".data⟩) := by rfl

/-- C2 (amended): the key/value form parses as the claim states — leading
`.`, name, optional whitespace, `=`, optional whitespace, quoted literal
with escapes preserved — but validation is weaker than claimed: only an
empty or non-name-initial post-prefix key fails with `InvalidInput`;
content between the parsed name and the `=` is ignored, not rejected. -/
theorem attribute_key_value_amended :
    (∀ name ws ws2 content rest : Str,
      ¬ name.isEmpty → name.all isTagChar →
      (∀ c ∈ ws, c.isWhitespace = true) → (∀ c ∈ ws2, c.isWhitespace = true) →
      quoteOk none content = true →
      attribute_parse_no_whitespace
          ('.' :: (name ++ (ws ++ ('=' :: (ws2 ++ ('"' :: (content ++ ('"' :: rest)))))))) =
        .ok (rest, ⟨name, content⟩)) ∧
    (∀ bad : Str, (∀ c ∈ bad, ¬ c = '=') →
      (bad = [] ∨ ∀ c, bad.head? = some c → isTagChar c = false) →
      attribute_parse_no_whitespace ('.' :: bad) =
        .error (.invalidInput bad (some "Invalid attribute key format".data))) ∧
    (∀ bad : Str, (bad = [] ∨ ∀ c, bad.head? = some c → isTagChar c = false) →
      attribute_parse_no_whitespace ('#' :: bad) =
        .error (.invalidInput ('#' :: bad) (some "Invalid id format".data))) := by
  refine ⟨?_, ?_, ?_⟩
  · intro name ws ws2 content rest h1 h2 hws hws2 hq
    unfold attribute_parse_no_whitespace
    split
    next idValue heq => simp at heq
    next =>
      have hsplit : splitOnce '='
          ('.' :: (name ++ (ws ++ ('=' :: (ws2 ++ ('"' :: (content ++ ('"' :: rest))))))))
          = some ('.' :: (name ++ ws), ws2 ++ ('"' :: (content ++ ('"' :: rest)))) := by
        have hk : ∀ c ∈ '.' :: (name ++ ws), ¬ c = '=' := by
          intro c hc
          simp only [List.mem_cons, List.mem_append] at hc
          rcases hc with hc | hc | hc
          · subst hc; decide
          · exact ne_eq_of_tag c (List.all_eq_true.mp h2 c hc)
          · exact ne_eq_of_ws c (hws c hc)
        have := splitOnce_append '=' ('.' :: (name ++ ws))
          (ws2 ++ ('"' :: (content ++ ('"' :: rest)))) hk
        simpa [List.append_assoc] using this
      have htrim : trimStart (ws2 ++ ('"' :: (content ++ ('"' :: rest)))) =
          '"' :: (content ++ ('"' :: rest)) := by
        rw [trimStart_ws_append ws2 ('"' :: (content ++ ('"' :: rest))) hws2]
        apply trimStart_eq_self
        intro c hc
        simp only [List.head?_cons, Option.some.injEq] at hc
        subst hc
        decide
      have htrimEnd : trimEnd ('.' :: (name ++ ws)) = '.' :: name := by
        have := trimEnd_append_ws ('.' :: name) ws hws (getLast_cons_name name h1 h2)
        simpa using this
      have hkey : get_attribute_key ('.' :: name) = .ok ([], name) := by
        have := get_attribute_key_name name [] h1 h2 (by simp)
        simpa using this
      simp only [hsplit, htrim, htrimEnd, hkey, quote_nested_append content rest hq]
  · intro bad hnoeq hbad
    unfold attribute_parse_no_whitespace
    split
    next idValue heq => simp at heq
    next =>
      have hsplit : splitOnce '=' ('.' :: bad) = none := by
        apply splitOnce_none
        intro c hc
        simp only [List.mem_cons] at hc
        rcases hc with hc | hc
        · subst hc; decide
        · exact hnoeq c hc
      have hkey : get_attribute_key ('.' :: bad) =
          .error (.invalidInput bad (some "Invalid attribute key format".data)) := by
        simp only [get_attribute_key]
        rw [if_neg (by simp)]
        rcases hbad with hbad | hbad
        · subst hbad
          rfl
        · cases bad with
          | nil => rfl
          | cons b bs =>
            have hb := hbad b rfl
            unfold tag_parse_no_whitespace split_exclusive_once
            rw [if_pos (by simp [hb])]
            rfl
      simp only [hsplit, hkey]
  · intro bad hbad
    unfold attribute_parse_no_whitespace
    have htag : ∃ err, tag_parse_no_whitespace bad = .error err := by
      rcases hbad with hbad | hbad
      · subst hbad
        exact ⟨.emptyInput, rfl⟩
      · cases bad with
        | nil => exact ⟨.emptyInput, rfl⟩
        | cons b bs =>
          have hb := hbad b rfl
          unfold tag_parse_no_whitespace split_exclusive_once
          rw [if_pos (by simp [hb])]
          exact ⟨.emptyInput, rfl⟩
    obtain ⟨err, herr⟩ := htag
    split
    next idValue heq =>
      have hid : idValue = bad := (((List.cons.injEq _ _ _ _).mp heq).2).symm
      subst hid
      rw [herr]
    next hno =>
      exact (hno bad rfl).elim

/-- Witness for the amended C2 theorem: `.k = "a\"b" tail` parses to
`{k, a\"b}` with the escaped quote preserved. -/
theorem attribute_key_value_amended_witness :
    attribute_parse_no_whitespace ".k = \"a\\\"b\" tail".data =
      .ok (" tail".data, ⟨"k".data, "a\\\"b".data⟩) := by
  have := attribute_key_value_amended.1 "k".data " ".data " ".data "a\\\"b".data
    " tail".data (by decide) (by decide) (by decide) (by decide) (by decide)
  simpa using this

/-- Counterexample to C3 as stated: the claim says `.foo` yields
`{class, foo}` with the remainder starting right after the name,
regardless of what text follows later in the input.  With `.bar="baz"`
following, `split_once('=')` instead pairs the `.foo` name with the later
quoted value: the parser returns `{foo, baz}` and consumes everything. -/
theorem class_shorthand_not_local :
    attribute_parse_no_whitespace ".foo .bar=\"baz\"".data =
      .ok ([], ⟨"foo".data, "baz".data⟩) := by rfl

/-- C3 (amended): `#name` is the id shorthand regardless of any following
text, but `.name` is the class shorthand only when no `=` occurs anywhere
in the remaining input, not merely when no `=` directly follows the
name. -/
theorem shorthand_attributes_amended :
    (∀ name rest : Str, ¬ name.isEmpty → name.all isTagChar →
      (∀ c, rest.head? = some c → isTagChar c = false) →
      attribute_parse_no_whitespace ('#' :: (name ++ rest)) =
        .ok (rest, ⟨"id".data, name⟩)) ∧
    (∀ name rest : Str, ¬ name.isEmpty → name.all isTagChar →
      (∀ c, rest.head? = some c → isTagChar c = false) →
      (∀ c ∈ name ++ rest, ¬ c = '=') →
      attribute_parse_no_whitespace ('.' :: (name ++ rest)) =
        .ok (rest, ⟨"class".data, name⟩)) := by
  constructor
  · intro name rest h1 h2 h3
    unfold attribute_parse_no_whitespace
    split
    next idValue heq =>
      have hid : idValue = name ++ rest := (((List.cons.injEq _ _ _ _).mp heq).2).symm
      subst hid
      rw [tag_parse_append name rest h1 h2 h3]
    next hno => exact (hno (name ++ rest) rfl).elim
  · intro name rest h1 h2 h3 hne
    unfold attribute_parse_no_whitespace
    split
    next idValue heq => simp at heq
    next =>
      have hsplit : splitOnce '=' ('.' :: (name ++ rest)) = none := by
        apply splitOnce_none
        intro c hc
        simp only [List.mem_cons] at hc
        rcases hc with hc | hc
        · subst hc; decide
        · exact hne c hc
      have hkey := get_attribute_key_name name rest h1 h2 h3
      simp only [hsplit, hkey]

/-- Witness for the amended shorthand theorem: `#foo .a="b"` still gives
the id shorthand with everything after the name untouched, and `.foo "x"`
(no `=` anywhere) gives the class shorthand. -/
theorem shorthand_attributes_amended_witness :
    attribute_parse_no_whitespace "#foo .a=\"b\"".data =
      .ok (" .a=\"b\"".data, ⟨"id".data, "foo".data⟩) ∧
    attribute_parse_no_whitespace ".foo \"x\"".data =
      .ok (" \"x\"".data, ⟨"class".data, "foo".data⟩) :=
  ⟨shorthand_attributes_amended.1 "foo".data " .a=\"b\"".data
      (by decide) (by decide) (by decide),
   shorthand_attributes_amended.2 "foo".data " \"x\"".data
      (by decide) (by decide) (by decide) (by decide)⟩

/-- C4 is a code bug: the interleaved body `div { .a h1 { .b = "c" } }` —
a class-shorthand attribute followed by a child element whose own body
holds an `=` — should parse to an element with attributes `[{class, a}]`
and one child, in order (the spec's interleaving guarantee, exercised by
the repository's own `test_large_document`).  The greedy `split_once('=')`
of `Attribute::parse_no_whitespace` instead pairs `.a` with the `"c"`
inside the child's body, derailing the scan, and the whole element parse
fails with `InvalidInput` at the stray closing brace. -/
theorem interleaved_body_fails :
    element_parse_no_whitespace "div \x7b .a h1 \x7b .b = \"c\" \x7d \x7d".data =
      .error (.invalidInput "\x7d ".data (some "Unexpected content in element".data)) := by
  rfl

/-! ### C8: try order of the Node alternatives -/

theorem text_ok_head (input r c : Str) (h : text_parse_no_whitespace input = .ok (r, c)) :
    (trimStart input).head? = some '"' := by
  unfold text_parse_no_whitespace quote_nested delimited at h
  split at h
  · exact absurd h (by simp)
  next hpre =>
    rw [not_not] at hpre
    cases hl : trimStart input with
    | nil => rw [hl] at hpre; simp [List.isPrefixOf] at hpre
    | cons a as =>
      rw [hl] at hpre
      simp only [List.isPrefixOf, Bool.and_eq_true, beq_iff_eq] at hpre
      rw [hpre.1]
      rfl

theorem tag_ok_head (input r n : Str) (h : tag_parse_no_whitespace input = .ok (r, n)) :
    ∃ c, input.head? = some c ∧ isTagChar c = true := by
  cases input with
  | nil => simp [tag_parse_no_whitespace, split_exclusive_once] at h
  | cons a as =>
    refine ⟨a, rfl, ?_⟩
    by_contra hna
    rw [Bool.not_eq_true] at hna
    simp [tag_parse_no_whitespace, split_exclusive_once, hna] at h

theorem element_fails_of_text_ok (fuel : Nat) (input r c : Str)
    (h : text_parse_no_whitespace input = .ok (r, c)) :
    ∃ e, elementAux fuel input = .error e := by
  cases fuel with
  | zero => exact ⟨.unexpectedEndOfInput, rfl⟩
  | succ fuel =>
    have hq := text_ok_head input r c h
    cases htag : tag_parse_no_whitespace input with
    | ok q =>
      obtain ⟨a, ha, hta⟩ := tag_ok_head input q.1 q.2 (by rw [htag])
      have hts : trimStart input = input := by
        apply trimStart_eq_self
        intro d hd
        rw [hd] at ha
        injection ha with ha
        subst ha
        simp [isTagChar_not_ws d hta]
      rw [hts, ha] at hq
      injection hq with hq
      subst hq
      simp [isTagChar] at hta
    | error e =>
      refine ⟨e, ?_⟩
      unfold elementAux
      rw [htag]

/-- Counterexample to C8 as stated: the two cited Node parsers are not
equivalent.  On `// c\n"t"` the live parser (src/node.rs, Text first,
comment-skipping alternatives) returns the text node, while the
superseded parser (src/element.rs, Element first, no comment skipping)
fails. -/
theorem node_parsers_differ :
    node_parse_no_whitespace "// c\n\"t\"".data = .ok ([], .text "t".data) ∧
    old_node_parse_no_whitespace "// c\n\"t\"".data =
      .error (.invalidInput "// c\n\"t\"".data (some "Cannot find Node type".data)) :=
  ⟨by rfl, by rfl⟩

/-- C8 (amended): holding the live alternatives fixed (the comment-skipping
Text and Element parsers of src/node.rs), the try order is irrelevant: the
variant that tries Element first returns exactly the same result — same
success or failure, and on success the same node and remainder — on every
input and every fuel, because a quoted text literal and a tag-name-initial
element are syntactically disjoint. -/
theorem node_try_order_irrelevant :
    ∀ (fuel : Nat) (input : Str), nodeAuxElementFirst fuel input = nodeAux fuel input := by
  intro fuel input
  cases fuel with
  | zero => rfl
  | succ fuel =>
    simp only [nodeAuxElementFirst, nodeAux]
    cases ht : text_parse_no_whitespace (consume_comments input) with
    | ok q =>
      obtain ⟨r, t⟩ := q
      obtain ⟨e, he⟩ := element_fails_of_text_ok fuel (consume_comments input) r t ht
      simp only [ht, he]
    | error e =>
      cases he : elementAux fuel (consume_comments input) with
      | ok q2 => simp only [ht, he]
      | error e2 => simp only [ht, he]

/-! ### C1: the search loop of `nested` against the spec-side scan -/

theorem findPat_cons_some_succ (p : Str) (c : Char) (cs : Str) (i : Nat)
    (h : findPat p (c :: cs) = some (i + 1)) :
    p.isPrefixOf (c :: cs) = false ∧ findPat p cs = some i := by
  unfold findPat at h
  split at h
  · simp at h
  next hp =>
    cases hs : findPat p cs with
    | none => rw [hs] at h; simp at h
    | some j =>
      rw [hs] at h
      simp only [Option.map_some', Option.some.injEq] at h
      refine ⟨by rwa [Bool.not_eq_true] at hp, ?_⟩
      exact congrArg some (by omega)

theorem findPat_cons_none (p : Str) (c : Char) (cs : Str)
    (h : findPat p (c :: cs) = none) :
    p.isPrefixOf (c :: cs) = false ∧ findPat p cs = none := by
  unfold findPat at h
  split at h
  · simp at h
  next hp =>
    cases hs : findPat p cs with
    | none => exact ⟨by rwa [Bool.not_eq_true] at hp, rfl⟩
    | some j => rw [hs] at h; simp at h

theorem findPat_cons_zero (p : Str) (c : Char) (cs : Str)
    (h : findPat p (c :: cs) = some 0) : p.isPrefixOf (c :: cs) = true := by
  unfold findPat at h
  split at h
  next hp => exact hp
  next hp =>
    cases hs : findPat p cs with
    | none => rw [hs] at h; simp at h
    | some j => rw [hs] at h; simp at h

theorem findPat_le_of_matches (p w : Str) (i : Nat)
    (h : p.isPrefixOf (w.drop i) = true) : ∃ j ≤ i, findPat p w = some j := by
  induction w generalizing i with
  | nil =>
    rw [List.drop_nil] at h
    have hp : p = [] := by
      cases p with
      | nil => rfl
      | cons a as => simp [List.isPrefixOf] at h
    subst hp
    exact ⟨0, Nat.zero_le i, rfl⟩
  | cons c cs ih =>
    cases i with
    | zero =>
      refine ⟨0, le_refl 0, ?_⟩
      unfold findPat
      rw [if_pos (by simpa using h)]
    | succ i =>
      by_cases hp : p.isPrefixOf (c :: cs) = true
      · exact ⟨0, Nat.zero_le _, by unfold findPat; rw [if_pos hp]⟩
      · rw [List.drop_succ_cons] at h
        obtain ⟨j, hj, hfind⟩ := ih i h
        refine ⟨j + 1, by omega, ?_⟩
        unfold findPat
        rw [if_neg hp, hfind]
        rfl

theorem nextDelim_shift (s e : Str) (c : Char) (cs : Str) (rel : Nat) (b : Bool)
    (h : nextDelim s e (c :: cs) = some (rel + 1, b)) :
    s.isPrefixOf (c :: cs) = false ∧ e.isPrefixOf (c :: cs) = false ∧
      nextDelim s e cs = some (rel, b) := by
  cases hps : findPat s (c :: cs) with
  | some ps =>
    cases hpe : findPat e (c :: cs) with
    | some pe =>
      simp only [nextDelim, hps, hpe] at h
      split at h <;> simp only [Option.some.injEq, Prod.mk.injEq] at h <;>
        obtain ⟨h1, h2⟩ := h <;> subst h2
      next hle =>
        subst h1
        obtain ⟨hs1, hs2⟩ := findPat_cons_some_succ s c cs rel hps
        refine ⟨hs1, ?_, ?_⟩
        · cases pe with
          | zero => omega
          | succ pe' => exact (findPat_cons_some_succ e c cs pe' hpe).1
        · cases pe with
          | zero => omega
          | succ pe' =>
            have he2 := (findPat_cons_some_succ e c cs pe' hpe).2
            simp only [nextDelim, hs2, he2]
            rw [if_pos (by omega)]
      next hgt =>
        subst h1
        obtain ⟨he1, he2⟩ := findPat_cons_some_succ e c cs rel hpe
        refine ⟨?_, he1, ?_⟩
        · cases ps with
          | zero => omega
          | succ ps' => exact (findPat_cons_some_succ s c cs ps' hps).1
        · cases ps with
          | zero => omega
          | succ ps' =>
            have hs2 := (findPat_cons_some_succ s c cs ps' hps).2
            simp only [nextDelim, hs2, he2]
            rw [if_neg (by omega)]
    | none =>
      simp only [nextDelim, hps, hpe, Option.some.injEq, Prod.mk.injEq] at h
      obtain ⟨h1, h2⟩ := h
      subst h1; subst h2
      obtain ⟨hs1, hs2⟩ := findPat_cons_some_succ s c cs rel hps
      obtain ⟨he1, he2⟩ := findPat_cons_none e c cs hpe
      exact ⟨hs1, he1, by simp only [nextDelim, hs2, he2]⟩
  | none =>
    cases hpe : findPat e (c :: cs) with
    | some pe =>
      simp only [nextDelim, hps, hpe, Option.some.injEq, Prod.mk.injEq] at h
      obtain ⟨h1, h2⟩ := h
      subst h1; subst h2
      obtain ⟨he1, he2⟩ := findPat_cons_some_succ e c cs rel hpe
      obtain ⟨hs1, hs2⟩ := findPat_cons_none s c cs hps
      exact ⟨hs1, he1, by simp only [nextDelim, hs2, he2]⟩
    | none => simp [nextDelim, hps, hpe] at h

theorem nextDelim_none_shift (s e : Str) (c : Char) (cs : Str)
    (h : nextDelim s e (c :: cs) = none) :
    s.isPrefixOf (c :: cs) = false ∧ e.isPrefixOf (c :: cs) = false ∧
      nextDelim s e cs = none := by
  cases hps : findPat s (c :: cs) with
  | some ps =>
    cases hpe : findPat e (c :: cs) with
    | some pe => simp only [nextDelim, hps, hpe] at h; split at h <;> simp at h
    | none => simp [nextDelim, hps, hpe] at h
  | none =>
    cases hpe : findPat e (c :: cs) with
    | some pe => simp [nextDelim, hps, hpe] at h
    | none =>
      obtain ⟨hs1, hs2⟩ := findPat_cons_none s c cs hps
      obtain ⟨he1, he2⟩ := findPat_cons_none e c cs hpe
      exact ⟨hs1, he1, by simp [nextDelim, hs2, he2]⟩

theorem nextDelim_zero_false (s e w : Str) (h : nextDelim s e w = some (0, false)) :
    s.isPrefixOf w = false := by
  by_contra hs
  rw [Bool.not_eq_false] at hs
  obtain ⟨j, hj, hfind⟩ := findPat_le_of_matches s w 0 (by simpa using hs)
  have hj0 : j = 0 := by omega
  subst hj0
  cases hpe : findPat e w with
  | some pe =>
    simp only [nextDelim, hfind, hpe] at h
    split at h
    · simp at h
    next hlt => omega
  | none => simp [nextDelim, hfind, hpe] at h

theorem isPrefixOf_nil_eq_nil (p : Str) (h : p.isPrefixOf ([] : Str) = true) : p = [] := by
  cases p with
  | nil => rfl
  | cons a as => simp [List.isPrefixOf] at h

theorem findPat_nil_eq_zero (pat : Str) (i : Nat) (h : findPat pat [] = some i) : i = 0 := by
  unfold findPat at h
  split at h
  · simp only [Option.some.injEq] at h; omega
  · simp at h

theorem nextDelim_nil_rel (s e : Str) (rel : Nat) (b : Bool)
    (h : nextDelim s e [] = some (rel, b)) : rel = 0 := by
  cases hps : findPat s [] with
  | some ps =>
    have hps0 := findPat_nil_eq_zero s ps hps
    cases hpe : findPat e [] with
    | some pe =>
      have hpe0 := findPat_nil_eq_zero e pe hpe
      simp only [nextDelim, hps, hpe] at h
      split at h <;>
        (simp only [Option.some.injEq, Prod.mk.injEq] at h; obtain ⟨h1, -⟩ := h; omega)
    | none =>
      simp only [nextDelim, hps, hpe, Option.some.injEq, Prod.mk.injEq] at h
      obtain ⟨h1, -⟩ := h
      omega
  | none =>
    cases hpe : findPat e [] with
    | some pe =>
      have hpe0 := findPat_nil_eq_zero e pe hpe
      simp only [nextDelim, hps, hpe, Option.some.injEq, Prod.mk.injEq] at h
      obtain ⟨h1, -⟩ := h
      omega
    | none => simp [nextDelim, hps, hpe] at h

theorem nextDelim_false_no_start (s e w : Str) (rel : Nat)
    (h : nextDelim s e w = some (rel, false)) : s.isPrefixOf (w.drop rel) = false := by
  by_contra hs
  rw [Bool.not_eq_false] at hs
  obtain ⟨j, hj, hfind⟩ := findPat_le_of_matches s w rel hs
  cases hpe : findPat e w with
  | some pe =>
    simp only [nextDelim, hfind, hpe] at h
    split at h
    · simp only [Option.some.injEq, Prod.mk.injEq] at h
      obtain ⟨-, h2⟩ := h
      simp at h2
    next hgt =>
      simp only [Option.some.injEq, Prod.mk.injEq] at h
      obtain ⟨h1, -⟩ := h
      omega
  | none => simp [nextDelim, hfind, hpe] at h

theorem scanIdx_nil (s e : Str) (g d : Nat) (p : Option Char) :
    scanIdx s e g d p [] = none := by
  cases g <;> rfl

theorem scanIdx_none_of_none (s e : Str) :
    ∀ f d p w, nextDelim s e w = none → scanIdx s e f d p w = none := by
  intro f
  induction f with
  | zero => intro d p w _; rfl
  | succ f ih =>
    intro d p w h
    cases w with
    | nil => rfl
    | cons c cs =>
      obtain ⟨h1, h2, h3⟩ := nextDelim_none_shift s e c cs h
      simp [scanIdx, h1, h2, ih d (some c) cs h3]

theorem scanIdx_skip (s e : Str) (d : Nat) :
    ∀ rel w (p : Option Char) (b : Bool) f, nextDelim s e w = some (rel, b) →
      scanIdx s e (f + rel) d p w =
        (scanIdx s e f d (if rel = 0 then p else w[rel - 1]?) (w.drop rel)).map (· + rel) := by
  intro rel
  induction rel with
  | zero =>
    intro w p b f h
    simp only [Nat.add_zero, if_pos rfl, List.drop_zero]
    cases hx : scanIdx s e f d p w <;> simp [hx]
  | succ rel ih =>
    intro w p b f h
    cases w with
    | nil => have := nextDelim_nil_rel s e (rel + 1) b h; omega
    | cons c cs =>
      obtain ⟨h1, h2, h3⟩ := nextDelim_shift s e c cs rel b h
      have hstep : scanIdx s e (f + rel + 1) d p (c :: cs)
          = (scanIdx s e (f + rel) d (some c) cs).map (· + 1) := by
        simp [scanIdx, h1, h2]
      rw [show f + (rel + 1) = f + rel + 1 from rfl, hstep, ih cs (some c) b f h3]
      rw [if_neg (show ¬ (rel + 1 = 0) by omega)]
      simp only [Nat.add_sub_cancel, List.drop_succ_cons]
      have hp : (if rel = 0 then some c else cs[rel - 1]?) = (c :: cs)[rel]? := by
        cases rel with
        | zero => simp
        | succ r => simp
      rw [hp]
      cases hx : scanIdx s e f d ((c :: cs)[rel]?) (cs.drop rel) with
      | none => simp only [hx, Option.map_none']
      | some i =>
        simp only [hx, Option.map_some', Option.some.injEq]
        omega

theorem prevAt_escape (A : Str) (q : Nat) :
    (0 < q && A[q - 1]? == some '\\') = (prevAt A q == some '\\') := by
  by_cases hq : q = 0
  · subst hq; simp [prevAt]
  · simp [prevAt, hq, Nat.pos_of_ne_zero hq]

theorem getElem_of_drop_cons (A : Str) (q : Nat) (c : Char) (cs : Str)
    (h : A.drop q = c :: cs) : A[q]? = some c := by
  have h0 : (A.drop q)[0]? = some c := by rw [h]; simp
  rwa [List.getElem?_drop, Nat.add_zero] at h0

theorem prevAt_drop_cons (A : Str) (q : Nat) (c : Char) (cs : Str)
    (h : A.drop q = c :: cs) : prevAt A (q + 1) = some c := by
  unfold prevAt
  rw [if_neg (by omega)]
  simpa using getElem_of_drop_cons A q c cs h

theorem prevAt_getLast (p A : Str) (q : Nat) (hp : p ≠ [])
    (h : p.isPrefixOf (A.drop q) = true) :
    prevAt A (q + p.length) = p.getLast? := by
  have hlen : 1 ≤ p.length := List.length_pos.mpr hp
  have happ := isPrefixOf_append p (A.drop q) h
  unfold prevAt
  rw [if_neg (by omega)]
  have h1 : A[q + p.length - 1]? = (A.drop q)[p.length - 1]? := by
    rw [List.getElem?_drop]
    congr 1
    omega
  rw [h1, happ, List.getElem?_append_left (by omega), List.getLast?_eq_getElem?]

theorem cons_drop_of_pos (c : Char) (cs : Str) (n : Nat) (hn : 1 ≤ n) :
    (c :: cs).drop n = cs.drop (n - 1) := by
  cases n with
  | zero => omega
  | succ m => simp

theorem nestedAux_eq_scanIdx (s e A : Str) (hs : s ≠ []) (he : e ≠ []) :
    ∀ fuel g offset depth, 1 ≤ depth →
      A.length < fuel + offset → A.length - offset < g →
      nestedAux s e A fuel offset depth =
        match scanIdx s e g depth (prevAt A offset) (A.drop offset) with
        | some i => .ok (A.drop (offset + i + e.length), A.take (offset + i))
        | none => .error (.missingEndDelimiter e A) := by
  intro fuel
  induction fuel with
  | zero =>
    intro g offset depth hd hfuel hg
    rw [List.drop_eq_nil_of_le (by omega), scanIdx_nil]
    rfl
  | succ fuel ih =>
    intro g offset depth hd hfuel hg
    cases hnd : nextDelim s e (A.drop offset) with
    | none =>
      rw [scanIdx_none_of_none s e g depth _ _ hnd]
      simp [nestedAux, hnd]
    | some rb =>
      obtain ⟨rel, isStart⟩ := rb
      have hpm0 : (if isStart then s else e).isPrefixOf ((A.drop offset).drop rel) = true := by
        have hm := nextDelim_some_matches s e (A.drop offset) rel isStart hnd
        cases isStart
        · simpa using hm.2 rfl
        · simpa using hm.1 rfl
      have hdd : (A.drop offset).drop rel = A.drop (offset + rel) := by
        rw [List.drop_drop]
      rw [hdd] at hpm0
      have hne_nil : A.drop (offset + rel) ≠ [] := by
        intro hcon
        rw [hcon] at hpm0
        have hnil := isPrefixOf_nil_eq_nil _ hpm0
        cases isStart <;> simp_all
      obtain ⟨c, cs, hw⟩ : ∃ c cs, A.drop (offset + rel) = c :: cs := by
        cases hA : A.drop (offset + rel) with
        | nil => exact absurd hA hne_nil
        | cons c cs => exact ⟨c, cs, rfl⟩
      have hlt : offset + rel < A.length := by
        have hlen := congrArg List.length hw
        simp only [List.length_drop, List.length_cons] at hlen
        omega
      have hpmC := hpm0
      rw [hw] at hpmC
      rw [show g = g - rel + rel from by omega,
        scanIdx_skip s e depth rel (A.drop offset) (prevAt A offset) isStart (g - rel) hnd]
      have hprev : (if rel = 0 then prevAt A offset else (A.drop offset)[rel - 1]?) =
          prevAt A (offset + rel) := by
        cases rel with
        | zero => simp
        | succ r =>
          rw [if_neg (by omega)]
          unfold prevAt
          rw [if_neg (by omega)]
          rw [List.getElem?_drop]
          congr 1
      rw [hprev, hdd, hw]
      obtain ⟨g2, hg3⟩ : ∃ k, g - rel = k + 1 := ⟨g - rel - 1, by omega⟩
      rw [hg3]
      have hcond : (s.isPrefixOf (c :: cs) || e.isPrefixOf (c :: cs)) = true := by
        cases isStart <;> simp_all
      by_cases hesc : (prevAt A (offset + rel) == some '\\') = true
      · -- escaped occurrence: both sides skip one character past the match
        have hL : nestedAux s e A (fuel + 1) offset depth
            = nestedAux s e A fuel (offset + rel + 1) depth := by
          simp only [nestedAux, hnd]
          rw [prevAt_escape A (offset + rel)]
          exact if_pos hesc
        have hR : scanIdx s e (g2 + 1) depth (prevAt A (offset + rel)) (c :: cs)
            = (scanIdx s e g2 depth (some c) cs).map (· + 1) := by
          simp only [scanIdx]
          rw [if_pos hcond, if_pos hesc]
        rw [hL, hR, ih g2 (offset + rel + 1) depth hd (by omega) (by omega)]
        rw [prevAt_drop_cons A (offset + rel) c cs hw]
        have hdrop1 : A.drop (offset + rel + 1) = cs := by
          have h1 := List.drop_drop 1 (offset + rel) A
          rw [hw] at h1
          simpa [Nat.add_comm] using h1.symm
        rw [hdrop1]
        cases hx : scanIdx s e g2 depth (some c) cs with
        | none => simp only [hx, Option.map_none']
        | some i =>
          simp only [hx, Option.map_some']
          have hx1 : offset + rel + 1 + i + e.length = offset + (i + 1 + rel) + e.length := by
            omega
          have hx2 : offset + rel + 1 + i = offset + (i + 1 + rel) := by omega
          rw [hx1, hx2]
      · have hesc' : ¬ ((prevAt A (offset + rel) == some '\\') = true) := hesc
        cases isStart with
        | true =>
          have hpmS : s.isPrefixOf (c :: cs) = true := by simpa using hpmC
          have hpmA : s.isPrefixOf (A.drop (offset + rel)) = true := by simpa using hpm0
          have hsl : 1 ≤ s.length := List.length_pos.mpr hs
          have hL : nestedAux s e A (fuel + 1) offset depth
              = nestedAux s e A fuel (offset + rel + s.length) (depth + 1) := by
            simp only [nestedAux, hnd]
            rw [prevAt_escape A (offset + rel)]
            rw [if_neg hesc']
            exact if_pos trivial
          have hR : scanIdx s e (g2 + 1) depth (prevAt A (offset + rel)) (c :: cs)
              = (scanIdx s e g2 (depth + 1) s.getLast? (cs.drop (s.length - 1))).map
                  (· + s.length) := by
            simp only [scanIdx]
            rw [if_pos hcond, if_neg hesc', if_pos hpmS]
          have hsfit : offset + rel + s.length ≤ A.length := by
            have := isPrefixOf_length_le s _ hpmA
            simp only [List.length_drop] at this
            omega
          rw [hL, hR, ih g2 (offset + rel + s.length) (depth + 1) (by omega) (by omega)
            (by omega)]
          rw [prevAt_getLast s A (offset + rel) hs hpmA]
          have hdropS : A.drop (offset + rel + s.length) = cs.drop (s.length - 1) := by
            have h1 := List.drop_drop s.length (offset + rel) A
            rw [hw, cons_drop_of_pos c cs s.length hsl] at h1
            rw [← h1]
          rw [hdropS]
          cases hx : scanIdx s e g2 (depth + 1) s.getLast? (cs.drop (s.length - 1)) with
          | none => simp only [hx, Option.map_none']
          | some i =>
            simp only [hx, Option.map_some']
            have hx1 : offset + rel + s.length + i + e.length
                = offset + (i + s.length + rel) + e.length := by omega
            have hx2 : offset + rel + s.length + i = offset + (i + s.length + rel) := by omega
            rw [hx1, hx2]
        | false =>
          have hpmE : e.isPrefixOf (c :: cs) = true := by simpa using hpmC
          have hpmA : e.isPrefixOf (A.drop (offset + rel)) = true := by simpa using hpm0
          have hel : 1 ≤ e.length := List.length_pos.mpr he
          have hnostart : s.isPrefixOf (c :: cs) = false := by
            have h0 := nextDelim_false_no_start s e (A.drop offset) rel hnd
            rwa [hdd, hw] at h0
          by_cases hdepth : depth = 1
          · subst hdepth
            have hL : nestedAux s e A (fuel + 1) offset 1
                = .ok (A.drop (offset + rel + e.length), A.take (offset + rel)) := by
              simp only [nestedAux, hnd]
              rw [prevAt_escape A (offset + rel)]
              rw [if_neg hesc']
              rw [if_neg (by simp)]
              exact if_pos trivial
            have hR : scanIdx s e (g2 + 1) 1 (prevAt A (offset + rel)) (c :: cs)
                = some 0 := by
              simp only [scanIdx]
              rw [if_pos hcond, if_neg hesc', if_neg (by simp [hnostart])]
              exact if_pos trivial
            rw [hL, hR]
            simp only [Option.map_some', Nat.zero_add]
          · have hd2 : 2 ≤ depth := by omega
            have hL : nestedAux s e A (fuel + 1) offset depth
                = nestedAux s e A fuel (offset + rel + e.length) (depth - 1) := by
              simp only [nestedAux, hnd]
              rw [prevAt_escape A (offset + rel)]
              rw [if_neg hesc']
              rw [if_neg (by simp)]
              exact if_neg hdepth
            have hR : scanIdx s e (g2 + 1) depth (prevAt A (offset + rel)) (c :: cs)
                = (scanIdx s e g2 (depth - 1) e.getLast? (cs.drop (e.length - 1))).map
                    (· + e.length) := by
              simp only [scanIdx]
              rw [if_pos hcond, if_neg hesc', if_neg (by simp [hnostart])]
              exact if_neg hdepth
            have hefit : offset + rel + e.length ≤ A.length := by
              have := isPrefixOf_length_le e _ hpmA
              simp only [List.length_drop] at this
              omega
            rw [hL, hR, ih g2 (offset + rel + e.length) (depth - 1) (by omega) (by omega)
              (by omega)]
            rw [prevAt_getLast e A (offset + rel) he hpmA]
            have hdropE : A.drop (offset + rel + e.length) = cs.drop (e.length - 1) := by
              have h1 := List.drop_drop e.length (offset + rel) A
              rw [hw, cons_drop_of_pos c cs e.length hel] at h1
              rw [← h1]
            rw [hdropE]
            cases hx : scanIdx s e g2 (depth - 1) e.getLast? (cs.drop (e.length - 1)) with
            | none => simp only [hx, Option.map_none']
            | some i =>
              simp only [hx, Option.map_some']
              have hx1 : offset + rel + e.length + i + e.length
                  = offset + (i + e.length + rel) + e.length := by omega
              have hx2 : offset + rel + e.length + i = offset + (i + e.length + rel) := by
                omega
              rw [hx1, hx2]

/-- **C1**: for every input and every non-identical, nonempty start/end
delimiter pair whose start token opens the trimmed input, the balanced
scanner `nested` returns exactly what the spec-side depth scan prescribes:
when the left-to-right scan (depth from 1, incremented at each start
occurrence, decremented at each end occurrence, escaped occurrences
skipped) reaches depth 0 at some closing occurrence, `nested` succeeds
with precisely the span up to that occurrence and the remainder after it —
so the trimmed input factors as start ++ span ++ end ++ remainder — and
when the scan never reaches depth 0, `nested` fails with
`MissingEndDelimiter`. -/
theorem nested_matches_spec (input s e : Str)
    (hs : s.isEmpty = false) (he : e.isEmpty = false) (hne : s ≠ e)
    (hpre : s.isPrefixOf (trimStart input) = true) :
    (nested input s e =
      match specSpan s e ((trimStart input).drop s.length) with
      | some (content, rest) => .ok (rest, content)
      | none =>
        .error (.missingEndDelimiter e ((trimStart input).drop s.length))) ∧
    (∀ content rest,
      specSpan s e ((trimStart input).drop s.length) = some (content, rest) →
      trimStart input = s ++ (content ++ (e ++ rest))) := by
  have hs' : s ≠ [] := by intro hcon; subst hcon; simp at hs
  have he' : e ≠ [] := by intro hcon; subst hcon; simp at he
  have h1 : nested input s e =
      match specSpan s e ((trimStart input).drop s.length) with
      | some (content, rest) => .ok (rest, content)
      | none =>
        .error (.missingEndDelimiter e ((trimStart input).drop s.length)) := by
    unfold nested
    rw [if_neg (not_not_intro hpre), if_neg hne]
    rw [nestedAux_eq_scanIdx s e ((trimStart input).drop s.length) hs' he'
      (((trimStart input).drop s.length).length + 2)
      (((trimStart input).drop s.length).length + 1) 0 1 (le_refl 1) (by omega) (by omega)]
    unfold specSpan
    rw [show prevAt ((trimStart input).drop s.length) 0 = none from rfl,
      List.drop_zero]
    cases hscan : scanIdx s e (((trimStart input).drop s.length).length + 1) 1 none
        ((trimStart input).drop s.length) with
    | none => rfl
    | some i => simp only [Option.map_some', Nat.zero_add]
  refine ⟨h1, ?_⟩
  intro content rest hspec
  have hok : nested input s e = .ok (rest, content) := by
    rw [h1, hspec]
  have hok2 : nestedAux s e ((trimStart input).drop s.length)
      (((trimStart input).drop s.length).length + 2) 0 1 = .ok (rest, content) := by
    rw [← hok]
    unfold nested
    rw [if_neg (not_not_intro hpre), if_neg hne]
  obtain ⟨q, hr, hc, hq⟩ := nestedAux_ok_closing s e _ _ _ _ _ _ hok2
  have hsplit := isPrefixOf_append e _ hq
  have hdd2 : ((((trimStart input).drop s.length).drop q).drop e.length)
      = ((trimStart input).drop s.length).drop (q + e.length) :=
    List.drop_drop e.length q ((trimStart input).drop s.length)
  rw [hdd2] at hsplit
  have hA := isPrefixOf_append s (trimStart input) hpre
  rw [hA]
  congr 1
  rw [hr, hc]
  calc (trimStart input).drop s.length
      = ((trimStart input).drop s.length).take q ++
          ((trimStart input).drop s.length).drop q := (List.take_append_drop _ _).symm
    _ = ((trimStart input).drop s.length).take q ++
          (e ++ ((trimStart input).drop s.length).drop (q + e.length)) := by
        rw [hsplit]

theorem nested_matches_spec_witness :
    nested [' ', '{', 'a', '{', 'b', '}', 'c', '}', 'd'] ['{'] ['}'] =
        .ok (['d'], ['a', '{', 'b', '}', 'c']) ∧
      trimStart [' ', '{', 'a', '{', 'b', '}', 'c', '}', 'd'] =
        ['{'] ++ (['a', '{', 'b', '}', 'c'] ++ (['}'] ++ ['d'])) := by
  have h := nested_matches_spec [' ', '{', 'a', '{', 'b', '}', 'c', '}', 'd'] ['{'] ['}']
    (by decide) (by decide) (by decide) (by decide)
  refine ⟨?_, h.2 ['a', '{', 'b', '}', 'c'] ['d'] (by decide)⟩
  rw [h.1]
  rfl

/-! ### C7: round-trip of rendered elements -/

theorem nested_ok_start (input s e r c : Str) (h : nested input s e = .ok (r, c)) :
    s.isPrefixOf (trimStart input) = true := by
  unfold nested at h
  split at h
  · exact absurd h (by simp)
  next hpre => exact of_not_not hpre

theorem comment_ok_head (input r : Str) (cm : Comment)
    (h : comment_parse_no_whitespace input = .ok (r, cm)) :
    (trimStart input).head? = some '/' := by
  unfold comment_parse_no_whitespace at h
  split at h
  next rest heq => rw [heq]; rfl
  next heq =>
    cases hn : nested (trimStart input) "/*".data "*/".data with
    | ok q =>
      have hpre := nested_ok_start _ _ _ q.1 q.2 (by rw [hn])
      rw [trimStart_idem] at hpre
      cases ht : trimStart input with
      | nil => rw [ht] at hpre; simp [List.isPrefixOf, String.data] at hpre
      | cons a as =>
        rw [ht] at hpre
        simp only [String.data, List.isPrefixOf, Bool.and_eq_true, beq_iff_eq] at hpre
        rw [List.head?_cons, ← hpre.1]
    | error e => simp [hn] at h

theorem consume_comments_eq_trimStart (x : Str)
    (h : (trimStart x).head? ≠ some '/') : consume_comments x = trimStart x := by
  show consumeCommentsAux (x.length + 1) x = trimStart x
  unfold consumeCommentsAux
  cases hcm : comment_parse_no_whitespace (trimStart x) with
  | ok q =>
    have hh := comment_ok_head (trimStart x) q.1 q.2 (by rw [hcm])
    rw [trimStart_idem] at hh
    exact absurd hh h
  | error e => simp [hcm]

theorem consume_comments_cons (c : Char) (t : Str) (hws : c.isWhitespace = false)
    (hc : c ≠ '/') : consume_comments (c :: t) = c :: t := by
  have htrim : trimStart (c :: t) = c :: t :=
    trimStart_eq_self _ (fun a ha => by
      simp only [List.head?_cons, Option.some.injEq] at ha
      subst ha
      simp [hws])
  rw [consume_comments_eq_trimStart (c :: t)
    (by rw [htrim]; simp only [List.head?_cons, ne_eq, Option.some.injEq]; exact hc), htrim]

theorem trimEnd_eq_self (l : Str) (h : ∀ c, l.getLast? = some c → c.isWhitespace = false) :
    trimEnd l = l := by
  unfold trimEnd
  have hrev : l.reverse.dropWhile Char.isWhitespace = l.reverse := by
    apply trimStart_eq_self
    intro c hc
    rw [← List.getLast?_eq_head?_reverse] at hc
    simp [h c hc]
  rw [hrev, List.reverse_reverse]

theorem trimEnd_cons_head (c : Char) (t : Str) (hws : c.isWhitespace = false) :
    ∃ t2, trimEnd (c :: t) = c :: t2 := by
  by_cases hd : (t.reverse.dropWhile Char.isWhitespace).isEmpty
  · refine ⟨[], ?_⟩
    unfold trimEnd
    rw [List.reverse_cons, List.dropWhile_append, if_pos hd]
    simp [List.dropWhile, hws]
  · refine ⟨(t.reverse.dropWhile Char.isWhitespace).reverse, ?_⟩
    unfold trimEnd
    rw [List.reverse_cons, List.dropWhile_append, if_neg hd]
    simp

theorem isTagChar_ne (c : Char) (h : isTagChar c = true) :
    c ≠ '{' ∧ c ≠ '}' ∧ c ≠ '\\' ∧ c ≠ '"' ∧ c ≠ '/' ∧ c ≠ '#' ∧ c ≠ '.' ∧ c ≠ '=' := by
  refine ⟨?_, ?_, ?_, ?_, ?_, ?_, ?_, ?_⟩ <;>
    (intro heq; subst heq; exact absurd h (by decide))

theorem goodText_mem (l : Str) (h : goodText l = true) (c : Char) (hm : c ∈ l) :
    c ≠ '"' ∧ c ≠ '\\' ∧ c ≠ '{' ∧ c ≠ '}' := by
  have hx := List.all_eq_true.mp h c hm
  simp only [decide_eq_true_eq, not_or] at hx
  exact ⟨hx.1, hx.2.1, hx.2.2.1, hx.2.2.2⟩

theorem quoteOk_of_goodText (l : Str) (h : goodText l = true) :
    ∀ p : Option Char, (p == some '\\') = false → quoteOk p l = true := by
  induction l with
  | nil => intro p hp; simp [quoteOk, hp]
  | cons c cs ih =>
    intro p hp
    have hc := goodText_mem (c :: cs) h c (by simp)
    have hcs : goodText cs = true := by
      simp only [goodText, List.all_cons, Bool.and_eq_true] at h
      exact h.2
    simp only [quoteOk, Bool.and_eq_true]
    refine ⟨by simp [hc.1], ih hcs (some c) (by simp [hc.2.1])⟩

theorem attribute_fails_head (c : Char) (X : Str) (h1 : c ≠ '#') (h2 : c ≠ '.')
    (h3 : c ≠ '=') (h4 : c.isWhitespace = false) :
    ∃ err, attribute_parse_no_whitespace (c :: X) = .error err := by
  unfold attribute_parse_no_whitespace
  split
  next idValue heq =>
    have hh : c = '#' := by
      have hhh := congrArg List.head? heq
      simpa using hhh
    exact absurd hh h1
  next =>
    cases hsp : splitOnce '=' (c :: X) with
    | none =>
      have hk : get_attribute_key (c :: X)
          = .error (.invalidInput (c :: X)
              (some "Attribute key must start with a period".data)) := by
        simp only [get_attribute_key]
        rw [if_pos h2]
      simp only [hsp, hk]
      exact ⟨_, rfl⟩
    | some q =>
      obtain ⟨key, rest⟩ := q
      have hkey : ∃ q1, key = c :: q1 := by
        simp only [splitOnce, if_neg h3] at hsp
        cases hx : splitOnce '=' X with
        | none => rw [hx] at hsp; simp at hsp
        | some q2 =>
          rw [hx] at hsp
          simp only [Option.map_some', Option.some.injEq, Prod.mk.injEq] at hsp
          exact ⟨q2.1, hsp.1.symm⟩
      obtain ⟨q1, hq1⟩ := hkey
      subst hq1
      simp only [hsp]
      cases hqn : quote_nested (trimStart rest) with
      | error e => exact ⟨e, rfl⟩
      | ok q3 =>
        obtain ⟨rest2, value⟩ := q3
        obtain ⟨t2, ht2⟩ := trimEnd_cons_head c q1 h4
        have hk : get_attribute_key (trimEnd (c :: q1))
            = .error (.invalidInput (c :: t2)
                (some "Attribute key must start with a period".data)) := by
          rw [ht2]
          simp only [get_attribute_key]
          rw [if_pos h2]
        simp only [hk]
        exact ⟨_, rfl⟩

theorem attribute_parse_render (key value tail : Str)
    (hk : goodName key = true) (hv : goodText value = true) :
    attribute_parse_no_whitespace
        ('.' :: (key ++ ('=' :: ('"' :: (value ++ ('"' :: tail))))))
      = .ok (tail, ⟨key, value⟩) := by
  have hk2 : key.all isTagChar = true := by
    simp only [goodName, Bool.and_eq_true] at hk
    exact hk.2
  have hk1 : ¬ key.isEmpty := by
    simp only [goodName, Bool.and_eq_true, decide_eq_true_eq] at hk
    exact hk.1
  have hsp : splitOnce '='
      ('.' :: (key ++ ('=' :: ('"' :: (value ++ ('"' :: tail))))))
      = some ('.' :: key, '"' :: (value ++ ('"' :: tail))) := by
    have hx : '.' :: (key ++ ('=' :: ('"' :: (value ++ ('"' :: tail)))))
        = ('.' :: key) ++ ('=' :: ('"' :: (value ++ ('"' :: tail)))) := by simp
    rw [hx]
    apply splitOnce_append
    intro a ha
    simp only [List.mem_cons] at ha
    cases ha with
    | inl h => subst h; decide
    | inr h => exact ne_eq_of_tag a (List.all_eq_true.mp hk2 a h)
  have htq : trimStart ('"' :: (value ++ ('"' :: tail)))
      = '"' :: (value ++ ('"' :: tail)) := by
    apply trimStart_eq_self
    intro a ha
    simp only [List.head?_cons, Option.some.injEq] at ha
    subst ha
    decide
  have hqn := quote_nested_append value tail (quoteOk_of_goodText value hv none rfl)
  have hte : trimEnd ('.' :: key) = '.' :: key :=
    trimEnd_eq_self _ (getLast_cons_name key hk1 hk2)
  have hgk : get_attribute_key ('.' :: key) = .ok ([], key) := by
    have := get_attribute_key_name key [] hk1 hk2 (fun a ha => by simp at ha)
    simpa using this
  simp only [attribute_parse_no_whitespace, hsp, htq, hqn, hte, hgk]
  rfl

theorem scanIdx_brace_step (f d : Nat) (p : Option Char) (c : Char) (w : Str)
    (h1 : c ≠ '{') (h2 : c ≠ '}') :
    scanIdx ['{'] ['}'] (f + 1) d p (c :: w)
      = (scanIdx ['{'] ['}'] f d (some c) w).map (· + 1) := by
  have hp1 : List.isPrefixOf ['{'] (c :: w) = false := by
    simp only [List.isPrefixOf, Bool.and_true, beq_eq_false_iff_ne, ne_eq]
    exact fun hh => h1 hh.symm
  have hp2 : List.isPrefixOf ['}'] (c :: w) = false := by
    simp only [List.isPrefixOf, Bool.and_true, beq_eq_false_iff_ne, ne_eq]
    exact fun hh => h2 hh.symm
  simp [scanIdx, hp1, hp2]

theorem scanIdx_open (f d : Nat) (p : Option Char) (w : Str)
    (hp : (p == some '\\') = false) :
    scanIdx ['{'] ['}'] (f + 1) d p ('{' :: w)
      = (scanIdx ['{'] ['}'] f (d + 1) (some '{') w).map (· + 1) := by
  have hp1 : List.isPrefixOf ['{'] ('{' :: w) = true := by
    simp [List.isPrefixOf]
  simp [scanIdx, hp1, hp]

theorem scanIdx_close_one (f : Nat) (p : Option Char) (w : Str)
    (hp : (p == some '\\') = false) :
    scanIdx ['{'] ['}'] (f + 1) 1 p ('}' :: w) = some 0 := by
  have hp1 : List.isPrefixOf ['{'] ('}' :: w) = false := by
    simp [List.isPrefixOf]
  have hp2 : List.isPrefixOf ['}'] ('}' :: w) = true := by
    simp [List.isPrefixOf]
  simp [scanIdx, hp1, hp2, hp]

theorem scanIdx_close (f d : Nat) (p : Option Char) (w : Str)
    (hp : (p == some '\\') = false) (hd : ¬ d = 1) :
    scanIdx ['{'] ['}'] (f + 1) d p ('}' :: w)
      = (scanIdx ['{'] ['}'] f (d - 1) (some '}') w).map (· + 1) := by
  have hp1 : List.isPrefixOf ['{'] ('}' :: w) = false := by
    simp [List.isPrefixOf]
  have hp2 : List.isPrefixOf ['}'] ('}' :: w) = true := by
    simp [List.isPrefixOf]
  simp [scanIdx, hp1, hp2, hp, hd]

theorem scanIdx_clean_chunk (u : Str)
    (hu : ∀ c ∈ u, c ≠ '{' ∧ c ≠ '}' ∧ c ≠ '\\') :
    ∀ F d (p : Option Char) w, (p == some '\\') = false → u.length ≤ F →
    ∃ p2, (p2 == some '\\') = false ∧
      scanIdx ['{'] ['}'] F d p (u ++ w)
        = (scanIdx ['{'] ['}'] (F - u.length) d p2 w).map (· + u.length) := by
  induction u with
  | nil =>
    intro F d p w hp hF
    refine ⟨p, hp, ?_⟩
    simp only [List.nil_append, List.length_nil, Nat.sub_zero]
    cases hx : scanIdx ['{'] ['}'] F d p w <;> simp [hx]
  | cons c u2 ih =>
    intro F d p w hp hF
    obtain ⟨F2, rfl⟩ : ∃ k, F = k + 1 := ⟨F - 1, by simp at hF; omega⟩
    have hc := hu c (by simp)
    rw [List.cons_append, scanIdx_brace_step F2 d p c (u2 ++ w) hc.1 hc.2.1]
    obtain ⟨p2, hp2, heq⟩ := ih (fun a ha => hu a (by simp [ha])) F2 d (some c) w
      (by simp [hc.2.2]) (by simp at hF; omega)
    rw [heq]
    refine ⟨p2, hp2, ?_⟩
    have hlen : F2 + 1 - (c :: u2).length = F2 - u2.length := by simp
    rw [hlen]
    cases hx : scanIdx ['{'] ['}'] (F2 - u2.length) d p2 w with
    | none => simp [hx]
    | some i =>
      simp only [hx, Option.map_some', Option.some.injEq, List.length_cons]
      omega

theorem name_clean (name : Str) (h : name.all isTagChar = true) :
    ∀ c ∈ name, c ≠ '{' ∧ c ≠ '}' ∧ c ≠ '\\' := by
  intro c hc
  have hf := isTagChar_ne c (List.all_eq_true.mp h c hc)
  exact ⟨hf.1, hf.2.1, hf.2.2.1⟩

theorem renderAttribute_clean (a : Attribute)
    (hk : goodName a.key = true) (hv : goodText a.value = true) :
    ∀ c ∈ renderAttribute a, c ≠ '{' ∧ c ≠ '}' ∧ c ≠ '\\' := by
  have hk2 : a.key.all isTagChar = true := by
    simp only [goodName, Bool.and_eq_true] at hk
    exact hk.2
  intro c hc
  simp only [renderAttribute, List.mem_cons, List.mem_append, List.mem_singleton] at hc
  rcases hc with ((h | h) | h | h | h) | h | h
  · subst h; exact ⟨by decide, by decide, by decide⟩
  · exact name_clean a.key hk2 c h
  · subst h; exact ⟨by decide, by decide, by decide⟩
  · subst h; exact ⟨by decide, by decide, by decide⟩
  · have hg := goodText_mem a.value hv c h
    exact ⟨hg.2.2.1, hg.2.2.2, hg.2.1⟩
  · subst h; exact ⟨by decide, by decide, by decide⟩
  · exact absurd h (List.not_mem_nil c)

theorem renderAttrs_clean (attrs : List Attribute)
    (h : attrs.all (fun a => goodName a.key && goodText a.value) = true) :
    ∀ c ∈ renderAttrs attrs, c ≠ '{' ∧ c ≠ '}' ∧ c ≠ '\\' := by
  induction attrs with
  | nil => intro c hc; simp [renderAttrs] at hc
  | cons a as ih =>
    have ha : goodName a.key = true ∧ goodText a.value = true := by
      have := List.all_eq_true.mp h a (by simp)
      simpa using this
    have has : as.all (fun a => goodName a.key && goodText a.value) = true := by
      simp only [List.all_cons, Bool.and_eq_true] at h
      exact h.2
    intro c hc
    simp only [renderAttrs, List.mem_cons, List.mem_append] at hc
    rcases hc with (h1 | h1) | h1
    · subst h1; exact ⟨by decide, by decide, by decide⟩
    · exact renderAttribute_clean a ha.1 ha.2 c h1
    · exact ih has c h1

theorem renderText_clean (content : Str) (h : goodText content = true) :
    ∀ c ∈ '"' :: (content ++ ['"']), c ≠ '{' ∧ c ≠ '}' ∧ c ≠ '\\' := by
  intro c hc
  simp only [List.mem_cons, List.mem_append, List.mem_singleton] at hc
  rcases hc with h1 | h1 | h1 | h1
  · subst h1; exact ⟨by decide, by decide, by decide⟩
  · have hg := goodText_mem content h c h1
    exact ⟨hg.2.2.1, hg.2.2.2, hg.2.1⟩
  · subst h1; exact ⟨by decide, by decide, by decide⟩
  · exact absurd h1 (List.not_mem_nil c)

theorem render_scan (N : Nat) :
    (∀ el, sizeOf el ≤ N → validElement el = true →
      ∀ F d (p : Option Char) w, 1 ≤ d → (p == some '\\') = false →
        (renderElement el).length ≤ F →
        scanIdx ['{'] ['}'] F d p (renderElement el ++ w)
          = (scanIdx ['{'] ['}'] (F - (renderElement el).length) d (some '}') w).map
              (· + (renderElement el).length)) ∧
    (∀ ns, sizeOf ns ≤ N → validNodes ns = true →
      ∀ F d (p : Option Char) w, 1 ≤ d → (p == some '\\') = false →
        (renderNodes ns).length ≤ F →
        ∃ p2, (p2 == some '\\') = false ∧
          scanIdx ['{'] ['}'] F d p (renderNodes ns ++ w)
            = (scanIdx ['{'] ['}'] (F - (renderNodes ns).length) d p2 w).map
                (· + (renderNodes ns).length)) := by
  induction N using Nat.strong_induction_on with
  | _ N ih =>
    constructor
    · rintro ⟨name, attrs, children⟩ hsize hval F d p w hd hp hF
      have hv : goodName name = true ∧
          attrs.all (fun a => goodName a.key && goodText a.value) = true ∧
          validNodes children = true := by
        simp only [validElement, Bool.and_eq_true] at hval
        exact ⟨hval.1.1, hval.1.2, hval.2⟩
      obtain ⟨hname, hattrs, hchildren⟩ := hv
      have hname2 : name.all isTagChar = true := by
        simp only [goodName, Bool.and_eq_true] at hname
        exact hname.2
      have hshape : renderElement (.mk name attrs children) ++ w
          = name ++ ('{' :: (renderAttrs attrs
              ++ (renderNodes children ++ (' ' :: ('}' :: w))))) := by
        simp [renderElement, List.append_assoc]
      have hlen : (renderElement (.mk name attrs children)).length
          = name.length + ((renderAttrs attrs).length
              + ((renderNodes children).length + 3)) := by
        simp [renderElement]
        omega
      rw [hshape]
      obtain ⟨p1, hp1, h1⟩ := scanIdx_clean_chunk name (name_clean name hname2) F d p
        ('{' :: (renderAttrs attrs ++ (renderNodes children ++ (' ' :: ('}' :: w)))))
        hp (by omega)
      rw [h1]
      obtain ⟨F2, hF2⟩ : ∃ k, F - name.length = k + 1 := ⟨F - name.length - 1, by omega⟩
      rw [hF2, scanIdx_open F2 d p1 _ hp1]
      obtain ⟨p3, hp3, h3⟩ := scanIdx_clean_chunk (renderAttrs attrs)
        (renderAttrs_clean attrs hattrs) F2 (d + 1) (some '{')
        (renderNodes children ++ (' ' :: ('}' :: w))) (by decide) (by omega)
      rw [h3]
      have hchsize : sizeOf children < N := by
        have hcc : sizeOf children < sizeOf (Element.mk name attrs children) := by
          first
          | (simp; omega)
          | simp
        omega
      obtain ⟨p4, hp4, h4⟩ := (ih (sizeOf children) hchsize).2 children (le_refl _)
        hchildren (F2 - (renderAttrs attrs).length) (d + 1) p3 (' ' :: ('}' :: w))
        (by omega) hp3 (by omega)
      rw [h4]
      obtain ⟨p5, hp5, h5⟩ := scanIdx_clean_chunk [' ']
        (fun c hc => by
          simp only [List.mem_singleton] at hc
          subst hc
          exact ⟨by decide, by decide, by decide⟩)
        (F2 - (renderAttrs attrs).length - (renderNodes children).length) (d + 1) p4
        ('}' :: w) hp4 (by simp; omega)
      simp only [List.singleton_append, List.length_singleton] at h5
      rw [h5]
      obtain ⟨F6, hF6⟩ : ∃ k,
          F2 - (renderAttrs attrs).length - (renderNodes children).length - 1 = k + 1 :=
        ⟨F2 - (renderAttrs attrs).length - (renderNodes children).length - 2, by omega⟩
      rw [hF6, scanIdx_close F6 (d + 1) p5 w hp5 (by omega)]
      have hdep : d + 1 - 1 = d := by omega
      rw [hdep]
      have hF6e : F6 = F - (renderElement (Element.mk name attrs children)).length := by
        omega
      rw [hF6e]
      cases hx : scanIdx ['{'] ['}']
          (F - (renderElement (Element.mk name attrs children)).length) d (some '}') w with
      | none => simp [hx]
      | some i =>
        simp only [hx, Option.map_some', Option.some.injEq]
        omega
    · intro ns hsize hval F d p w hd hp hF
      cases ns with
      | nil =>
        refine ⟨p, hp, ?_⟩
        simp only [renderNodes, List.nil_append, List.length_nil, Nat.sub_zero]
        cases hx : scanIdx ['{'] ['}'] F d p w <;> simp [hx]
      | cons n ns2 =>
        have hvn : validNode n = true ∧ validNodes ns2 = true := by
          simp only [validNodes, Bool.and_eq_true] at hval
          exact hval
        have hshape : renderNodes (n :: ns2) ++ w
            = ' ' :: (renderNode n ++ (renderNodes ns2 ++ w)) := by
          simp [renderNodes, List.append_assoc]
        have hns2size : sizeOf ns2 < N := by
          have hcc : sizeOf ns2 < sizeOf (n :: ns2) := by
            first
            | (simp; omega)
            | simp
          omega
        have hpos : 1 ≤ (renderNodes (n :: ns2)).length := by
          first
          | (simp [renderNodes]; omega)
          | simp [renderNodes]
        obtain ⟨F1, hF1⟩ : ∃ k, F = k + 1 := ⟨F - 1, by omega⟩
        rw [hF1] at hF
        cases n with
        | text content =>
          have hgt : goodText content = true := by simpa [validNode] using hvn.1
          have hnshape : renderNode (Node.text content) = '"' :: (content ++ ['"']) := by
            simp [renderNode]
          have hFn : (renderNodes (Node.text content :: ns2)).length
              = ('"' :: (content ++ ['"'])).length + (renderNodes ns2).length + 1 := by
            simp [renderNodes, hnshape]
            omega
          obtain ⟨pt, hpt, ht⟩ := scanIdx_clean_chunk ('"' :: (content ++ ['"']))
            (renderText_clean content hgt) F1 d (some ' ') (renderNodes ns2 ++ w)
            (by decide) (by omega)
          obtain ⟨p2, hp2, h2⟩ := (ih (sizeOf ns2) hns2size).2 ns2 (le_refl _) hvn.2
            (F1 - ('"' :: (content ++ ['"'])).length) d pt w hd hpt (by omega)
          refine ⟨p2, hp2, ?_⟩
          rw [hshape, hF1, scanIdx_brace_step F1 d p ' ' _ (by decide) (by decide),
            hnshape, ht, h2]
          have hfe : F1 + 1 - (renderNodes (Node.text content :: ns2)).length
              = F1 - ('"' :: (content ++ ['"'])).length - (renderNodes ns2).length := by
            omega
          rw [hfe]
          cases hx : scanIdx ['{'] ['}']
              (F1 - ('"' :: (content ++ ['"'])).length - (renderNodes ns2).length)
              d p2 w with
          | none => simp [hx]
          | some i =>
            simp only [hx, Option.map_some', Option.some.injEq]
            omega
        | element el =>
          have hvel : validElement el = true := by simpa [validNode] using hvn.1
          have helsize : sizeOf el < N := by
            simp at hsize
            omega
          have hnshape : renderNode (Node.element el) = renderElement el := by
            simp [renderNode]
          have hFn : (renderNodes (Node.element el :: ns2)).length
              = (renderElement el).length + (renderNodes ns2).length + 1 := by
            simp [renderNodes, hnshape]
          have helscan := (ih (sizeOf el) helsize).1 el (le_refl _) hvel F1 d (some ' ')
            (renderNodes ns2 ++ w) hd (by decide) (by omega)
          obtain ⟨p2, hp2, h2⟩ := (ih (sizeOf ns2) hns2size).2 ns2 (le_refl _) hvn.2
            (F1 - (renderElement el).length) d (some '}') w hd (by decide) (by omega)
          refine ⟨p2, hp2, ?_⟩
          rw [hshape, hF1, scanIdx_brace_step F1 d p ' ' _ (by decide) (by decide),
            hnshape, helscan, h2]
          have hfe : F1 + 1 - (renderNodes (Node.element el :: ns2)).length
              = F1 - (renderElement el).length - (renderNodes ns2).length := by
            omega
          rw [hfe]
          cases hx : scanIdx ['{'] ['}']
              (F1 - (renderElement el).length - (renderNodes ns2).length) d p2 w with
          | none => simp [hx]
          | some i =>
            simp only [hx, Option.map_some', Option.some.injEq]
            omega

theorem nested_render_body (attrs : List Attribute) (children : List Node) (rest : Str)
    (hattrs : attrs.all (fun a => goodName a.key && goodText a.value) = true)
    (hchildren : validNodes children = true) :
    nested ('{' :: (renderAttrs attrs ++ (renderNodes children ++ (' ' :: ('}' :: rest)))))
        ['{'] ['}']
      = .ok (rest, renderAttrs attrs ++ (renderNodes children ++ [' '])) := by
  have htr : trimStart ('{' :: (renderAttrs attrs
      ++ (renderNodes children ++ (' ' :: ('}' :: rest)))))
      = '{' :: (renderAttrs attrs ++ (renderNodes children ++ (' ' :: ('}' :: rest)))) :=
    trimStart_eq_self _ (fun c hc => by
      simp only [List.head?_cons, Option.some.injEq] at hc
      subst hc
      decide)
  have hXlen : (renderAttrs attrs ++ (renderNodes children ++ (' ' :: ('}' :: rest)))).length
      = (renderAttrs attrs).length + ((renderNodes children).length + (2 + rest.length)) := by
    simp
    omega
  unfold nested
  rw [htr]
  rw [if_neg (not_not_intro (by simp [List.isPrefixOf]))]
  rw [if_neg (by decide)]
  simp only [List.length_cons, List.length_nil, List.drop_succ_cons, List.drop_zero]
  rw [nestedAux_eq_scanIdx ['{'] ['}']
    (renderAttrs attrs ++ (renderNodes children ++ (' ' :: ('}' :: rest))))
    (by decide) (by decide)
    ((renderAttrs attrs ++ (renderNodes children ++ (' ' :: ('}' :: rest)))).length + 2)
    ((renderAttrs attrs ++ (renderNodes children ++ (' ' :: ('}' :: rest)))).length + 1)
    0 1 (le_refl 1) (by omega) (by omega)]
  rw [show prevAt (renderAttrs attrs ++ (renderNodes children ++ (' ' :: ('}' :: rest)))) 0
    = none from rfl, List.drop_zero]
  obtain ⟨p1, hp1, h1⟩ := scanIdx_clean_chunk (renderAttrs attrs)
    (renderAttrs_clean attrs hattrs)
    ((renderAttrs attrs ++ (renderNodes children ++ (' ' :: ('}' :: rest)))).length + 1)
    1 none (renderNodes children ++ (' ' :: ('}' :: rest))) rfl (by omega)
  rw [h1]
  obtain ⟨p2, hp2, h2⟩ := (render_scan (sizeOf children)).2 children (le_refl _) hchildren
    ((renderAttrs attrs ++ (renderNodes children ++ (' ' :: ('}' :: rest)))).length + 1
      - (renderAttrs attrs).length)
    1 p1 (' ' :: ('}' :: rest)) (le_refl 1) hp1 (by omega)
  rw [h2]
  obtain ⟨p3, hp3, h3⟩ := scanIdx_clean_chunk [' ']
    (fun c hc => by
      simp only [List.mem_singleton] at hc
      subst hc
      exact ⟨by decide, by decide, by decide⟩)
    ((renderAttrs attrs ++ (renderNodes children ++ (' ' :: ('}' :: rest)))).length + 1
      - (renderAttrs attrs).length - (renderNodes children).length)
    1 p2 ('}' :: rest) hp2 (by simp; omega)
  simp only [List.singleton_append, List.length_singleton] at h3
  rw [h3]
  obtain ⟨F4, hF4⟩ : ∃ k,
      (renderAttrs attrs ++ (renderNodes children ++ (' ' :: ('}' :: rest)))).length + 1
        - (renderAttrs attrs).length - (renderNodes children).length - 1 = k + 1 :=
    ⟨(renderAttrs attrs ++ (renderNodes children ++ (' ' :: ('}' :: rest)))).length + 1
        - (renderAttrs attrs).length - (renderNodes children).length - 2, by omega⟩
  rw [hF4, scanIdx_close_one F4 p3 rest hp3]
  simp only [Option.map_some']
  have hsplit : renderAttrs attrs ++ (renderNodes children ++ (' ' :: ('}' :: rest)))
      = (renderAttrs attrs ++ (renderNodes children ++ [' '])) ++ ('}' :: rest) := by
    simp
  have hgen : ∀ i : Nat,
      i = (renderAttrs attrs ++ (renderNodes children ++ [' '])).length →
      (Except.ok
        ((renderAttrs attrs ++ (renderNodes children ++ (' ' :: ('}' :: rest)))).drop
          (0 + i + List.length ['}']),
         (renderAttrs attrs ++ (renderNodes children ++ (' ' :: ('}' :: rest)))).take (0 + i))
        : ParseResult Str)
        = .ok (rest, renderAttrs attrs ++ (renderNodes children ++ [' '])) := by
    intro i hi
    subst hi
    have ht : (renderAttrs attrs ++ (renderNodes children ++ (' ' :: ('}' :: rest)))).take
        (0 + (renderAttrs attrs ++ (renderNodes children ++ [' '])).length)
        = renderAttrs attrs ++ (renderNodes children ++ [' ']) := by
      rw [Nat.zero_add, hsplit, List.take_left]
    have hd : (renderAttrs attrs ++ (renderNodes children ++ (' ' :: ('}' :: rest)))).drop
        (0 + (renderAttrs attrs ++ (renderNodes children ++ [' '])).length
          + List.length ['}'])
        = rest := by
      rw [Nat.zero_add, hsplit]
      rw [show (renderAttrs attrs ++ (renderNodes children ++ [' '])).length
          + List.length ['}']
          = ((renderAttrs attrs ++ (renderNodes children ++ [' '])) ++ ['}']).length from by
            simp
            omega]
      rw [show (renderAttrs attrs ++ (renderNodes children ++ [' '])) ++ ('}' :: rest)
          = ((renderAttrs attrs ++ (renderNodes children ++ [' '])) ++ ['}']) ++ rest from by
            simp]
      exact List.drop_left _ _
    rw [ht, hd]
  exact hgen _ (by simp; omega)

theorem consume_comments_space_cons (c : Char) (t : Str) (hws : c.isWhitespace = false)
    (hc : c ≠ '/') : consume_comments (' ' :: (c :: t)) = c :: t := by
  have h0 : trimStart (c :: t) = c :: t :=
    trimStart_eq_self _ (fun a ha => by
      simp only [List.head?_cons, Option.some.injEq] at ha
      subst ha
      simp [hws])
  have h1 : trimStart (' ' :: (c :: t)) = c :: t := by
    have h2 := trimStart_ws_append [' '] (c :: t)
      (by intro x hx; simp only [List.mem_singleton] at hx; subst hx; decide)
    rw [List.singleton_append] at h2
    rw [h2, h0]
  rw [consume_comments_eq_trimStart _
    (by rw [h1]; simp only [List.head?_cons, ne_eq, Option.some.injEq]; exact hc), h1]

theorem consume_comments_space : consume_comments [' '] = [] := by
  have h1 : trimStart [' '] = [] := by decide
  rw [consume_comments_eq_trimStart _ (by rw [h1]; simp), h1]

theorem render_parse (fuel : Nat) :
    (∀ el rest, validElement el = true →
        (renderElement el).length ≤ fuel →
        elementAux fuel (renderElement el ++ rest) = .ok (rest, el)) ∧
    (∀ n rest, validNode n = true →
        (renderNode n).length + 1 ≤ fuel →
        nodeAux fuel (renderNode n ++ rest) = .ok (rest, n)) ∧
    (∀ as ns (attrs0 : List Attribute) (children0 : List Node),
        as.all (fun a => goodName a.key && goodText a.value) = true →
        validNodes ns = true →
        (renderAttrs as).length + (renderNodes ns).length + 2 ≤ fuel →
        itemsAux fuel (renderAttrs as ++ (renderNodes ns ++ [' '])) attrs0 children0
          = .ok (attrs0 ++ as, children0 ++ ns)) := by
  induction fuel using Nat.strong_induction_on with
  | _ fuel ih =>
    refine ⟨?_, ?_, ?_⟩
    · rintro ⟨name, attrs, children⟩ rest hval hF
      have hv : goodName name = true ∧
          attrs.all (fun a => goodName a.key && goodText a.value) = true ∧
          validNodes children = true := by
        simp only [validElement, Bool.and_eq_true] at hval
        exact ⟨hval.1.1, hval.1.2, hval.2⟩
      obtain ⟨hname, hattrs, hchildren⟩ := hv
      have hname1 : ¬ name.isEmpty := by
        simp only [goodName, Bool.and_eq_true, decide_eq_true_eq] at hname
        exact hname.1
      have hname2 : name.all isTagChar = true := by
        simp only [goodName, Bool.and_eq_true] at hname
        exact hname.2
      have hnpos : 1 ≤ name.length := by
        cases name with
        | nil => simp at hname1
        | cons a l => simp
      have hlenE : (renderElement (Element.mk name attrs children)).length
          = name.length + ((renderAttrs attrs).length
              + ((renderNodes children).length + 3)) := by
        simp [renderElement]
        omega
      obtain ⟨f, rfl⟩ : ∃ k, fuel = k + 1 := ⟨fuel - 1, by omega⟩
      have hshape : renderElement (Element.mk name attrs children) ++ rest
          = name ++ ('{' :: (renderAttrs attrs
              ++ (renderNodes children ++ (' ' :: ('}' :: rest))))) := by
        simp [renderElement, List.append_assoc]
      have htag : tag_parse_no_whitespace
          (renderElement (Element.mk name attrs children) ++ rest)
          = .ok ('{' :: (renderAttrs attrs
              ++ (renderNodes children ++ (' ' :: ('}' :: rest)))), name) := by
        rw [hshape]
        exact tag_parse_append name _ hname1 hname2 (fun c hc => by
          simp only [List.head?_cons, Option.some.injEq] at hc
          subst hc
          decide)
      have hcc : consume_comments ('{' :: (renderAttrs attrs
          ++ (renderNodes children ++ (' ' :: ('}' :: rest)))))
          = '{' :: (renderAttrs attrs ++ (renderNodes children ++ (' ' :: ('}' :: rest)))) :=
        consume_comments_cons '{' _ (by decide) (by decide)
      have hnest := nested_render_body attrs children rest hattrs hchildren
      have hitems := (ih f (by omega)).2.2 attrs children [] [] hattrs hchildren (by omega)
      simp only [elementAux, htag, hcc, hnest, hitems]
      simp
    · intro n rest hval hF
      obtain ⟨f, rfl⟩ : ∃ k, fuel = k + 1 := ⟨fuel - 1, by omega⟩
      cases n with
      | text content =>
        have hgt : goodText content = true := by simpa [validNode] using hval
        have hshape : renderNode (Node.text content) ++ rest
            = '"' :: (content ++ ('"' :: rest)) := by
          simp [renderNode]
        have hcc : consume_comments ('"' :: (content ++ ('"' :: rest)))
            = '"' :: (content ++ ('"' :: rest)) :=
          consume_comments_cons '"' _ (by decide) (by decide)
        have htxt : text_parse_no_whitespace ('"' :: (content ++ ('"' :: rest)))
            = .ok (rest, content) := by
          unfold text_parse_no_whitespace
          exact quote_nested_append content rest (quoteOk_of_goodText content hgt none rfl)
        simp only [nodeAux, hshape, hcc, htxt]
      | element el =>
        obtain ⟨name, attrs, children⟩ := el
        have hvel : validElement (Element.mk name attrs children) = true := by
          simpa [validNode] using hval
        have hname : goodName name = true := by
          simp only [validElement, Bool.and_eq_true] at hvel
          exact hvel.1.1
        have hname2 : name.all isTagChar = true := by
          simp only [goodName, Bool.and_eq_true] at hname
          exact hname.2
        obtain ⟨nc, nr, rfl⟩ : ∃ c l, name = c :: l := by
          cases name with
          | nil => simp [goodName] at hname
          | cons a l => exact ⟨a, l, rfl⟩
        have hnc : isTagChar nc = true := List.all_eq_true.mp hname2 nc (by simp)
        have hne := isTagChar_ne nc hnc
        have hrnEq : renderNode (Node.element (Element.mk (nc :: nr) attrs children))
            = renderElement (Element.mk (nc :: nr) attrs children) := by
          simp [renderNode]
        have hshape : renderElement (Element.mk (nc :: nr) attrs children) ++ rest
            = nc :: (nr ++ ('{' :: (renderAttrs attrs
                ++ (renderNodes children ++ (' ' :: ('}' :: rest)))))) := by
          simp [renderElement, List.append_assoc]
        have hcc : consume_comments (nc :: (nr ++ ('{' :: (renderAttrs attrs
            ++ (renderNodes children ++ (' ' :: ('}' :: rest)))))))
            = nc :: (nr ++ ('{' :: (renderAttrs attrs
                ++ (renderNodes children ++ (' ' :: ('}' :: rest)))))) :=
          consume_comments_cons nc _ (isTagChar_not_ws nc hnc) hne.2.2.2.2.1
        have htxt : ∃ terr, text_parse_no_whitespace (nc :: (nr ++ ('{' :: (renderAttrs attrs
            ++ (renderNodes children ++ (' ' :: ('}' :: rest)))))))
            = .error terr := by
          unfold text_parse_no_whitespace quote_nested delimited
          have htr2 : trimStart (nc :: (nr ++ ('{' :: (renderAttrs attrs
              ++ (renderNodes children ++ (' ' :: ('}' :: rest)))))))
              = nc :: (nr ++ ('{' :: (renderAttrs attrs
                  ++ (renderNodes children ++ (' ' :: ('}' :: rest)))))) :=
            trimStart_eq_self _ (fun a ha => by
              simp only [List.head?_cons, Option.some.injEq] at ha
              subst ha
              simp [isTagChar_not_ws nc hnc])
          have hq : List.isPrefixOf ['"'] (nc :: (nr ++ ('{' :: (renderAttrs attrs
              ++ (renderNodes children ++ (' ' :: ('}' :: rest))))))) = false := by
            simp only [List.isPrefixOf, Bool.and_true]
            simp only [beq_eq_false_iff_ne, ne_eq]
            exact fun hh => hne.2.2.2.1 hh.symm
          rw [htr2, if_pos (by simp [hq])]
          exact ⟨_, rfl⟩
        obtain ⟨terr, hterr⟩ := htxt
        have helem := (ih f (by omega)).1 (Element.mk (nc :: nr) attrs children) rest hvel
          (by
            have hrlen : (renderNode (Node.element
                (Element.mk (nc :: nr) attrs children))).length
                = (renderElement (Element.mk (nc :: nr) attrs children)).length := by
              rw [hrnEq]
            omega)
        rw [hshape] at helem
        simp only [nodeAux, hrnEq, hshape, hcc, hterr, helem]
    · intro as ns attrs0 children0 hall hvns hF
      obtain ⟨f, rfl⟩ : ∃ k, fuel = k + 1 := ⟨fuel - 1, by omega⟩
      cases as with
      | cons a as2 =>
        obtain ⟨k, v⟩ := a
        have ha : goodName k = true ∧ goodText v = true := by
          have hx := List.all_eq_true.mp hall ⟨k, v⟩ (by simp)
          simpa using hx
        have has2 : as2.all (fun a => goodName a.key && goodText a.value) = true := by
          simp only [List.all_cons, Bool.and_eq_true] at hall
          exact hall.2
        have hshape : renderAttrs (⟨k, v⟩ :: as2) ++ (renderNodes ns ++ [' '])
            = ' ' :: ('.' :: (k ++ ('=' :: ('"' :: (v ++ ('"' :: (renderAttrs as2
                ++ (renderNodes ns ++ [' '])))))))) := by
          simp [renderAttrs, renderAttribute, List.append_assoc]
        have hralen : (renderAttribute ⟨k, v⟩).length = k.length + v.length + 4 := by
          simp [renderAttribute]
          omega
        have hAlen : (renderAttrs (⟨k, v⟩ :: as2)).length
            = (renderAttribute ⟨k, v⟩).length + (renderAttrs as2).length + 1 := by
          simp [renderAttrs]
        have hccS : consume_comments (' ' :: ('.' :: (k ++ ('=' :: ('"' :: (v
            ++ ('"' :: (renderAttrs as2 ++ (renderNodes ns ++ [' '])))))))))
            = '.' :: (k ++ ('=' :: ('"' :: (v ++ ('"' :: (renderAttrs as2
                ++ (renderNodes ns ++ [' ']))))))) :=
          consume_comments_space_cons '.' _ (by decide) (by decide)
        have hccD : consume_comments ('.' :: (k ++ ('=' :: ('"' :: (v
            ++ ('"' :: (renderAttrs as2 ++ (renderNodes ns ++ [' ']))))))))
            = '.' :: (k ++ ('=' :: ('"' :: (v ++ ('"' :: (renderAttrs as2
                ++ (renderNodes ns ++ [' ']))))))) :=
          consume_comments_cons '.' _ (by decide) (by decide)
        have hattr := attribute_parse_render k v
          (renderAttrs as2 ++ (renderNodes ns ++ [' '])) ha.1 ha.2
        have hrec := (ih f (by omega)).2.2 as2 ns (attrs0 ++ [⟨k, v⟩]) children0 has2 hvns
          (by omega)
        rw [hshape]
        simp only [itemsAux, hccS, List.isEmpty_cons, hccD, hattr, hrec]
        simp
      | nil =>
        have hra : (renderAttrs ([] : List Attribute)).length = 0 := rfl
        cases ns with
        | nil =>
          have hshape : renderAttrs ([] : List Attribute)
              ++ (renderNodes ([] : List Node) ++ [' ']) = [' '] := by
            simp [renderAttrs, renderNodes]
          rw [hshape]
          simp only [itemsAux, consume_comments_space, List.isEmpty_nil]
          simp
        | cons n ns2 =>
          have hvn : validNode n = true ∧ validNodes ns2 = true := by
            simp only [validNodes, Bool.and_eq_true] at hvns
            exact hvns
          cases n with
          | text content =>
            have hgt : goodText content = true := by simpa [validNode] using hvn.1
            have hrn : (renderNode (Node.text content)).length = content.length + 2 := by
              simp [renderNode]
            have hln : (renderNodes (Node.text content :: ns2)).length
                = content.length + (renderNodes ns2).length + 3 := by
              simp [renderNodes, renderNode]
              omega
            have hshape : renderAttrs ([] : List Attribute)
                ++ (renderNodes (Node.text content :: ns2) ++ [' '])
                = ' ' :: ('"' :: (content ++ ('"' :: (renderNodes ns2 ++ [' '])))) := by
              simp [renderAttrs, renderNodes, renderNode, List.append_assoc]
            have hccS : consume_comments (' ' :: ('"' :: (content
                ++ ('"' :: (renderNodes ns2 ++ [' '])))))
                = '"' :: (content ++ ('"' :: (renderNodes ns2 ++ [' ']))) :=
              consume_comments_space_cons '"' _ (by decide) (by decide)
            have hccD : consume_comments ('"' :: (content
                ++ ('"' :: (renderNodes ns2 ++ [' ']))))
                = '"' :: (content ++ ('"' :: (renderNodes ns2 ++ [' ']))) :=
              consume_comments_cons '"' _ (by decide) (by decide)
            obtain ⟨aerr, haerr⟩ := attribute_fails_head '"'
              (content ++ ('"' :: (renderNodes ns2 ++ [' '])))
              (by decide) (by decide) (by decide) (by decide)
            have hnode := (ih f (by omega)).2.1 (Node.text content)
              (renderNodes ns2 ++ [' ']) hvn.1 (by omega)
            have hnshape : renderNode (Node.text content) ++ (renderNodes ns2 ++ [' '])
                = '"' :: (content ++ ('"' :: (renderNodes ns2 ++ [' ']))) := by
              simp [renderNode]
            rw [hnshape] at hnode
            have hrec := (ih f (by omega)).2.2 ([] : List Attribute) ns2 attrs0
              (children0 ++ [Node.text content]) rfl hvn.2 (by omega)
            simp only [renderAttrs, List.nil_append] at hrec
            rw [hshape]
            simp only [itemsAux, hccS, List.isEmpty_cons, hccD, haerr, hnode, hrec]
            simp
          | element el =>
            obtain ⟨ename, eattrs, echildren⟩ := el
            have hvel : validElement (Element.mk ename eattrs echildren) = true := by
              simpa [validNode] using hvn.1
            have hename : goodName ename = true := by
              simp only [validElement, Bool.and_eq_true] at hvel
              exact hvel.1.1
            have hename2 : ename.all isTagChar = true := by
              simp only [goodName, Bool.and_eq_true] at hename
              exact hename.2
            obtain ⟨nc, nr, rfl⟩ : ∃ c l, ename = c :: l := by
              cases ename with
              | nil => simp [goodName] at hename
              | cons a l => exact ⟨a, l, rfl⟩
            have hnc : isTagChar nc = true := List.all_eq_true.mp hename2 nc (by simp)
            have hne := isTagChar_ne nc hnc
            have hrn : (renderNode (Node.element
                (Element.mk (nc :: nr) eattrs echildren))).length
                = (renderElement (Element.mk (nc :: nr) eattrs echildren)).length := by
              simp [renderNode]
            have hln : (renderNodes (Node.element
                (Element.mk (nc :: nr) eattrs echildren) :: ns2)).length
                = (renderElement (Element.mk (nc :: nr) eattrs echildren)).length
                  + (renderNodes ns2).length + 1 := by
              simp [renderNodes, renderNode]
            have hshape : renderAttrs ([] : List Attribute)
                ++ (renderNodes (Node.element
                    (Element.mk (nc :: nr) eattrs echildren) :: ns2) ++ [' '])
                = ' ' :: (nc :: (nr ++ ('{' :: (renderAttrs eattrs
                    ++ (renderNodes echildren
                      ++ (' ' :: ('}' :: (renderNodes ns2 ++ [' '])))))))) := by
              simp [renderAttrs, renderNodes, renderNode, renderElement, List.append_assoc]
            have hccS : consume_comments (' ' :: (nc :: (nr ++ ('{' :: (renderAttrs eattrs
                ++ (renderNodes echildren ++ (' ' :: ('}' :: (renderNodes ns2
                  ++ [' '])))))))))
                = nc :: (nr ++ ('{' :: (renderAttrs eattrs ++ (renderNodes echildren
                    ++ (' ' :: ('}' :: (renderNodes ns2 ++ [' ']))))))) :=
              consume_comments_space_cons nc _ (isTagChar_not_ws nc hnc) hne.2.2.2.2.1
            have hccD : consume_comments (nc :: (nr ++ ('{' :: (renderAttrs eattrs
                ++ (renderNodes echildren ++ (' ' :: ('}' :: (renderNodes ns2
                  ++ [' ']))))))))
                = nc :: (nr ++ ('{' :: (renderAttrs eattrs ++ (renderNodes echildren
                    ++ (' ' :: ('}' :: (renderNodes ns2 ++ [' ']))))))) :=
              consume_comments_cons nc _ (isTagChar_not_ws nc hnc) hne.2.2.2.2.1
            obtain ⟨aerr, haerr⟩ := attribute_fails_head nc
              (nr ++ ('{' :: (renderAttrs eattrs ++ (renderNodes echildren
                ++ (' ' :: ('}' :: (renderNodes ns2 ++ [' '])))))))
              hne.2.2.2.2.2.1 hne.2.2.2.2.2.2.1 hne.2.2.2.2.2.2.2
              (isTagChar_not_ws nc hnc)
            have hnode := (ih f (by omega)).2.1
              (Node.element (Element.mk (nc :: nr) eattrs echildren))
              (renderNodes ns2 ++ [' ']) hvn.1 (by omega)
            have hnshape : renderNode (Node.element (Element.mk (nc :: nr) eattrs echildren))
                ++ (renderNodes ns2 ++ [' '])
                = nc :: (nr ++ ('{' :: (renderAttrs eattrs ++ (renderNodes echildren
                    ++ (' ' :: ('}' :: (renderNodes ns2 ++ [' ']))))))) := by
              simp [renderNode, renderElement, List.append_assoc]
            rw [hnshape] at hnode
            have hrec := (ih f (by omega)).2.2 ([] : List Attribute) ns2 attrs0
              (children0 ++ [Node.element (Element.mk (nc :: nr) eattrs echildren)])
              rfl hvn.2 (by omega)
            simp only [renderAttrs, List.nil_append] at hrec
            rw [hshape]
            simp only [itemsAux, hccS, List.isEmpty_cons, hccD, haerr, hnode, hrec]
            simp

/-- Counterexample to C7 as stated: the only attribute serializer in the
repository (`impl Display for Attribute`, `src/attribute.rs` lines 42-46,
cited by the claim) renders `key="value"` with no `.`/`#` prefix, which
`Attribute::parse_no_whitespace` rejects — so a serializer assembled from
it cannot round-trip any element carrying an attribute: the rendered
attribute is rejected on its own, and a `div` element whose body carries
the rendered attribute fails to re-parse as a whole. -/
theorem attribute_display_not_reparseable :
    (attribute_parse_no_whitespace
        (display_attribute ⟨"class".data, "container".data⟩)).isOk = false ∧
    (element_parse_no_whitespace ("div".data
        ++ ('{' :: (' ' :: (display_attribute ⟨"class".data, "container".data⟩
          ++ [' ', '}']))))).isOk = false := by
  decide

/-- **C7** (amended): round-trip of serialized elements through the
parser.  The repository has no `Element` serializer under `src/` (the §6
rendering layer is external), and its `Display for Attribute` emits a
form the attribute parser rejects; `renderElement` is the §6
surface-grammar serializer (`tagname { body }`, `.key="value"`
attributes, quoted text).  For every element whose tag and attribute
keys are tag-lexer names and whose attribute values and text contents
are free of quotes, backslashes and braces — in particular every such
builder-constructed element — serializing with `renderElement` and
re-parsing with `Element::parse_no_whitespace` succeeds and returns
exactly the original element with an empty remainder: same tag, same
attribute sequence in order, same child sequence in order. -/
theorem builder_round_trip_amended (el : Element) (h : validElement el = true) :
    element_parse_no_whitespace (renderElement el) = .ok ([], el) := by
  unfold element_parse_no_whitespace
  have hx := (render_parse ((renderElement el).length + 1)).1 el [] h (by omega)
  simpa using hx

/-- Witness: a builder-constructed `div` with one class attribute and a
text child round-trips. -/
theorem builder_round_trip_amended_witness :
    validElement (((Element.new "div".data).with_attribute
        ⟨"class".data, "container".data⟩).with_child (.text "Hello".data)) = true ∧
      element_parse_no_whitespace (renderElement (((Element.new "div".data).with_attribute
        ⟨"class".data, "container".data⟩).with_child (.text "Hello".data)))
        = .ok ([], ((Element.new "div".data).with_attribute
            ⟨"class".data, "container".data⟩).with_child (.text "Hello".data)) :=
  ⟨by decide, builder_round_trip_amended _ (by decide)⟩

end RsTml
